import Mathlib

/-!
# fs-perm-backup: permission codec, path resolver, tree walker and applier

A shallow embedding of `packages/utils/utils.go` and `packages/backup/backup.go`.

* Go strings are Lean `String`s; `len(s)` is the UTF-8 byte length and
  `for _, c := range s` iterates over the code points `s.data`.
* Go `int` / `uint32` values are `Nat` (no value computed here reaches 2^32).
* A Go `error` result is an `Option Error` (`none` is `nil`), a `(value, error)`
  result is an `Except Error value`; a function that changes the file system returns
  the new state next to its error.
* The file system is a tree of directories and regular files, without hard or
  symbolic links.
* The JSON text exchanged between backup and restore is kept as the record array it
  encodes; encoding and decoding are not modelled.
* The program is embedded over a system-call layer `Sys` (functions `Sys.*`), so that a
  statement can hold for every behaviour of the operating system. Two layers are given.
  `posixSys` resolves a path name as it is written, element by element, and enforces
  the access rights of a process that owns every entry (or is the superuser).
  `lexicalSys`, the calls `Stat`, `Chmod`, `WriteFile` and the functions named as in the
  source without prefix, is the layer of a privileged process on path names in cleaned
  form: the name is cleaned as `filepath.Abs` does before the lookup and no access
  right is checked. The unprefixed functions are the program over `lexicalSys`
  (`lexical_instance`).
-/

namespace FsPermBackup

/-! ## Errors -/

/-- Error numbers the modelled system calls can report. -/
inductive Errno where
  | ENOENT
  | ENOTDIR
  | EISDIR
  | EACCES
  deriving DecidableEq, Repr

/-- One constructor per `errors.New` / `fmt.Errorf` site of the two packages;
a wrapped cause is the last field. -/
inductive Error where
  /-- The underlying `*PathError` of a failed system call. -/
  | sys (e : Errno)
  /-- Message "permission string must be exactly 3 characters long" -/
  | permLength
  /-- Message "invalid permission string: %s" -/
  | permInvalid (s : String)
  /-- Message "error converting permissions for file '%s': %v" -/
  | convert (path : String) (cause : Error)
  /-- Message "file or directory '%s' does not exist" -/
  | restoreMissing (path : String)
  /-- Message "error restoring directory permissions for '%s': %v" -/
  | restoreDir (path : String) (cause : Error)
  /-- Message "error restoring file permissions for '%s': %v" -/
  | restoreFile (path : String) (cause : Error)
  /-- Message "unable to determine home directory" -/
  | noHome
  /-- The error of `os.Getwd` passed on by `filepath.Abs`. -/
  | noWorkingDir
  /-- Message "file or directory does not exist: " + absPath -/
  | doesNotExist (absPath : String)
  /-- Message "directory '%s' does not exist" -/
  | dirMissing (path : String)
  /-- Message "error accessing directory '%s': %w" -/
  | dirAccess (path : String) (cause : Error)
  /-- Message "'%s' is not a directory" -/
  | notADirectory (path : String)
  /-- Message "invalid parent directory path: %w" -/
  | invalidParent (cause : Error)
  /-- Message "file '%s' already exists" -/
  | alreadyExists (path : String)
  /-- Message "error checking if file '%s' exists: %v" -/
  | checkExists (path : String) (cause : Error)
  /-- Message "error accessing path '%s': %v" -/
  | walkAccess (path : String) (cause : Error)
  /-- Message "error walking the directory '%s': %v" -/
  | walking (path : String) (cause : Error)
  /-- Message "invalid output file: %v" -/
  | invalidOutputFile (cause : Error)
  /-- Message "invalid directory: %v" -/
  | invalidDirectory (cause : Error)
  /-- Message "invalid output path: %v" -/
  | invalidOutputPath (cause : Error)
  /-- Message "directory validation failed: %v" -/
  | dirValidation (cause : Error)
  /-- Message "error getting directory permissions: %v" -/
  | gettingPermissions (cause : Error)
  /-- Message "error writing permissions to file: %v" -/
  | writing (cause : Error)
  deriving DecidableEq, Repr

deriving instance DecidableEq for Except

/-! ## Permission codec -/

/-- The record type `FilePermissions` of `utils.go`. -/
structure FilePermissions where
  Path : String
  /-- The field `Type` of the Go struct ("file" or "directory"). -/
  FileType : String
  User : String
  Group : String
  Other : String
  IsDirectory : Bool
  deriving DecidableEq, Repr

/-- Function `rwx` of `utils.go`: the symbolic form of a numeric triad. -/
def rwx (perm : Nat) : String :=
  let chars := ['-', '-', '-']
  let chars := if perm &&& 4 != 0 then chars.set 0 'r' else chars
  let chars := if perm &&& 2 != 0 then chars.set 1 'w' else chars
  let chars := if perm &&& 1 != 0 then chars.set 2 'x' else chars
  String.mk chars

/-- The map `permMap` of `convertPermissionsToOctal`; a key that is absent reads as
the zero value. -/
def permMap (c : Char) : Nat :=
  if c = 'r' then 4 else if c = 'w' then 2 else if c = 'x' then 1 else 0

/-- One of the three loops `for _, c := range s { acc += permMap[c] }`. -/
def sumPerm (s : String) : Nat :=
  s.data.foldl (fun acc c => acc + permMap c) 0

/-- Function `convertPermissionsToOctal` of `utils.go`. -/
def convertPermissionsToOctal (user group other : String) : Except Error Nat :=
  let userPerm := sumPerm user
  let groupPerm := sumPerm group
  let otherPerm := sumPerm other
  .ok ((userPerm <<< 6) ||| (groupPerm <<< 3) ||| otherPerm)

/-- Go `len(s)` of a Go string: its number of UTF-8 bytes. -/
def goLen (s : String) : Nat :=
  (s.data.map Char.utf8Size).sum

/-- Membership in the character class `[rwx-]`. -/
def inClass (c : Char) : Bool :=
  c == 'r' || c == 'w' || c == 'x' || c == '-'

/-- Whole-text match of `^[rwx-]{n}$`: exactly `n` code points, each in the class. -/
def matchClassN : Nat → List Char → Bool
  | 0, [] => true
  | n + 1, c :: cs => inClass c && matchClassN n cs
  | _, _ => false

/-- Go `validPerm.MatchString` for the pattern `^[rwx-]{3}$`. -/
def validPermMatch (s : String) : Bool :=
  matchClassN 3 s.data

/-- Function `ValidatePermissionString` of `utils.go`. -/
def ValidatePermissionString (permission : String) : Option Error :=
  if goLen permission != 3 then some Error.permLength
  else if !validPermMatch permission then some (Error.permInvalid permission)
  else none

/-! ## path/filepath and the process environment (Unix)

`filepath.Clean` is embedded through its documented rules: split at the separators,
drop empty and `.` elements, let each `..` remove the element before it (at the root
it is dropped, at the start of a relative path it is kept), and join again. -/

/-- The elements of a path: the text between the `/` separators (possibly empty). -/
def splitSlash : List Char → List (List Char)
  | [] => [[]]
  | c :: cs =>
    if c = '/' then [] :: splitSlash cs
    else
      match splitSlash cs with
      | [] => [[c]]
      | w :: ws => (c :: w) :: ws

/-- The elements of a path as strings. -/
def components (p : String) : List String :=
  (splitSlash p.data).map String.mk

/-- One element processed by `Clean`; `stack` holds the elements kept so far, the
last one first. -/
def cleanStep (rooted : Bool) (stack : List String) (c : String) : List String :=
  if c = "" ∨ c = "." then stack
  else if c = ".." then
    match stack with
    | [] => if rooted then [] else [c]
    | t :: ts => if t = ".." then c :: t :: ts else ts
  else c :: stack

/-- The elements `Clean` keeps, in path order. -/
def normalize (rooted : Bool) (comps : List String) : List String :=
  (comps.foldl (cleanStep rooted) []).reverse

/-- Elements joined with single separators. -/
def joinSlash : List String → List Char
  | [] => []
  | [c] => c.data
  | c :: d :: cs => c.data ++ '/' :: joinSlash (d :: cs)

/-- The path text of a cleaned element list. -/
def render (rooted : Bool) (stack : List String) : String :=
  if rooted then String.mk ('/' :: joinSlash stack)
  else if stack = [] then "."
  else String.mk (joinSlash stack)

/-- Go `filepath.IsAbs`: the path starts with a separator. -/
def IsAbs (p : String) : Bool :=
  p.data.head? == some '/'

/-- Go `filepath.Clean`. -/
def Clean (p : String) : String :=
  if p = "" then "."
  else render (IsAbs p) (normalize (IsAbs p) (components p))

/-- Go `filepath.Join` of two elements: leading empty elements are ignored, the rest is
joined with a separator and cleaned. -/
def Join (a b : String) : String :=
  if a ≠ "" then Clean (a ++ "/" ++ b)
  else if b ≠ "" then Clean b
  else ""

/-- The text of a path up to and including its last separator. -/
def uptoLastSlash : List Char → List Char
  | [] => []
  | c :: cs =>
    if cs.contains '/' then c :: uptoLastSlash cs
    else if c = '/' then [c]
    else []

/-- Go `filepath.Dir`. -/
def Dir (p : String) : String :=
  Clean (String.mk (uptoLastSlash p.data))

/-- Go `strings.HasPrefix(s, "~")`. -/
def hasTildePrefix (s : String) : Bool :=
  s.data.head? == some '~'

/-- The process environment: `$HOME`, and the elements of the working directory
(`none` when `os.Getwd` fails). -/
structure Env where
  home : String
  cwd : Option (List String)
  deriving DecidableEq, Repr

/-- Go `os.UserHomeDir`: `$HOME`, an error when it is empty. -/
def UserHomeDir (env : Env) : Except Error String :=
  if env.home ≠ "" then .ok env.home else .error Error.noHome

/-- Go `os.Getwd`. -/
def Getwd (env : Env) : Except Error String :=
  match env.cwd with
  | some cs => .ok (render true cs)
  | none => .error Error.noWorkingDir

/-- Go `filepath.Abs`. -/
def Abs (env : Env) (path : String) : Except Error String :=
  if IsAbs path then .ok (Clean path)
  else
    match Getwd env with
    | .error e => .error e
    | .ok wd => .ok (Join wd path)

/-! ## The file system

A tree of directories and regular files (no symbolic links). A directory listing is
an `Entries` value: per entry its name, its inode, its own listing (empty for a
regular file) and then the remaining entries of the same directory. -/

/-- What `os.FileInfo` reports of an entry, and the JSON document a regular file
holds (kept as the record array it encodes). -/
structure Inode where
  isDir : Bool
  perm : Nat
  content : List FilePermissions
  deriving DecidableEq, Repr

/-- A directory listing. -/
inductive Entries where
  | nil
  | cons (name : String) (node : Inode) (children : Entries) (rest : Entries)
  deriving DecidableEq, Repr

/-- The file system: the inode of `/` and its listing. -/
structure FS where
  root : Inode
  top : Entries
  deriving DecidableEq, Repr

/-- The entry called `n` of a listing. -/
def Entries.child (n : String) : Entries → Option (Inode × Entries)
  | .nil => none
  | .cons m i ch rest => if m = n then some (i, ch) else rest.child n

/-- Path lookup from a directory, element by element. -/
def lookupFrom : Inode → Entries → List String → Except Errno (Inode × Entries)
  | i, ch, [] => .ok (i, ch)
  | i, ch, c :: cs =>
    if !i.isDir then .error Errno.ENOTDIR
    else
      match ch.child c with
      | none => .error Errno.ENOENT
      | some (j, gch) => lookupFrom j gch cs

/-- Path lookup from `/`. -/
def FS.lookup (fs : FS) (cs : List String) : Except Errno (Inode × Entries) :=
  lookupFrom fs.root fs.top cs

/-- The listing in which the inode at `cs` is replaced by its image under `f`. -/
def Entries.modify (f : Inode → Inode) : Entries → List String → Entries
  | .nil, _ => .nil
  | .cons m i ch rest, [] => .cons m i ch rest
  | .cons m i ch rest, c :: cs =>
    if m = c then
      match cs with
      | [] => .cons m (f i) ch rest
      | _ :: _ => .cons m i (ch.modify f cs) rest
    else .cons m i ch (rest.modify f (c :: cs))

/-- The file system in which the inode at `cs` is replaced by its image under `f`. -/
def FS.modify (fs : FS) (f : Inode → Inode) (cs : List String) : FS :=
  match cs with
  | [] => { fs with root := f fs.root }
  | _ :: _ => { fs with top := fs.top.modify f cs }

/-- A listing with one more entry at its end. -/
def Entries.append (n : String) (i : Inode) : Entries → Entries
  | .nil => .cons n i .nil .nil
  | .cons m j ch rest => .cons m j ch (rest.append n i)

/-- The listing in which the directory at `cs` gets the new entry `n`. -/
def Entries.create (n : String) (i : Inode) : Entries → List String → Entries
  | es, [] => es.append n i
  | .nil, _ :: _ => .nil
  | .cons m j ch rest, c :: cs =>
    if m = c then .cons m j (ch.create n i cs) rest
    else .cons m j ch (rest.create n i (c :: cs))

/-- The elements the kernel resolves a path name to, relative to the working
directory. Resolution is lexical, as in `filepath.Abs`. -/
def resolve (env : Env) (path : String) : Option (List String) :=
  match Abs env path with
  | .ok a => some (normalize true (components a))
  | .error _ => none

/-- Go `os.Stat` (and `os.Lstat`: there are no symbolic links). -/
def Stat (env : Env) (fs : FS) (path : String) : Except Errno Inode :=
  match resolve env path with
  | none => .error Errno.ENOENT
  | some cs =>
    match fs.lookup cs with
    | .ok (i, _) => .ok i
    | .error e => .error e

/-- Go `FileMode.Perm`: the nine permission bits. -/
def Perm (mode : Nat) : Nat :=
  mode &&& 0o777

/-- Go `os.Chmod`: the permission bits of the entry become those of `mode`; its type
is not touched. -/
def Chmod (env : Env) (fs : FS) (path : String) (mode : Nat) : Except Errno FS :=
  match resolve env path with
  | none => .error Errno.ENOENT
  | some cs =>
    match fs.lookup cs with
    | .ok _ => .ok (fs.modify (fun i => { i with perm := Perm mode }) cs)
    | .error e => .error e

/-- Go `os.WriteFile` (open with `O_WRONLY|O_CREATE|O_TRUNC`, write, close): a regular
file is overwritten, a directory is refused, a missing entry is created in an
existing parent directory with the permission bits `perm`. -/
def WriteFile (env : Env) (fs : FS) (path : String) (data : List FilePermissions)
    (perm : Nat) : Except Errno FS :=
  match resolve env path with
  | none => .error Errno.ENOENT
  | some cs =>
    match fs.lookup cs with
    | .ok (i, _) =>
      if i.isDir then .error Errno.EISDIR
      else .ok (fs.modify (fun j => { j with content := data }) cs)
    | .error Errno.ENOENT =>
      match cs.getLast? with
      | none => .error Errno.ENOENT
      | some n =>
        match fs.lookup cs.dropLast with
        | .ok (d, _) =>
          if d.isDir then
            .ok { fs with top := fs.top.create n (Inode.mk false (Perm perm) data) cs.dropLast }
          else .error Errno.ENOTDIR
        | .error e => .error e
    | .error e => .error e

/-! ## utils.go -/

/-- Function `fileType` of `utils.go`. -/
def fileType (info : Inode) : String :=
  if info.isDir then "directory" else "file"

/-- The record the walk callback of `GetDirectoryPermissions` appends for one
visited entry. -/
def visit (path : String) (info : Inode) : FilePermissions :=
  let mode := info.perm
  let user := rwx ((Perm mode >>> 6) &&& 7)
  let group := rwx ((Perm mode >>> 3) &&& 7)
  let other := rwx (Perm mode &&& 7)
  { Path := path, FileType := fileType info, User := user, Group := group,
    Other := other, IsDirectory := info.isDir }

/-- The descent of `filepath.Walk` below the directory `path`: each entry of the
listing is visited under the name `Join path name`, then the entries below it, then
the next entry. The order of the listing stands for the lexical order in which
`filepath.Walk` reads the names. -/
def walkEntries (path : String) : Entries → List FilePermissions
  | .nil => []
  | .cons name info ch rest =>
    visit (Join path name) info
      :: ((if info.isDir then walkEntries (Join path name) ch else [])
          ++ walkEntries path rest)

/-- Function `GetDirectoryPermissions` of `utils.go`. The JSON text it returns is kept as
the record array it encodes. -/
def GetDirectoryPermissions (env : Env) (fs : FS) (absDirPath : String) :
    Except Error (List FilePermissions) :=
  match resolve env absDirPath with
  | none =>
    .error (Error.walking absDirPath
      (Error.walkAccess absDirPath (Error.sys Errno.ENOENT)))
  | some cs =>
    match fs.lookup cs with
    | .error e =>
      .error (Error.walking absDirPath (Error.walkAccess absDirPath (Error.sys e)))
    | .ok (info, ch) =>
      .ok (visit absDirPath info
        :: (if info.isDir then walkEntries absDirPath ch else []))

/-- The two `~` expansions and the path computation of `ResolveAbsolutePath`
(lines 103-122): the absolute path, before any existence check. -/
def resolveTarget (env : Env) (path : String) : Except Error String :=
  if hasTildePrefix path then
    match UserHomeDir env with
    | .error _ => .error Error.noHome
    | .ok homeDir =>
      if path.data.length > 1 ∧ path.data.get? 1 = some '/' then
        Abs env (Join homeDir (String.mk (path.data.drop 2)))
      else Abs env homeDir
  else Abs env path

/-- Function `ResolveAbsolutePath` of `utils.go`; `checkExistence` is the variadic
argument list. -/
def ResolveAbsolutePath (env : Env) (fs : FS) (path : String)
    (checkExistence : List Bool) : Except Error String :=
  let check := match checkExistence with
    | [] => true
    | b :: _ => b
  match resolveTarget env path with
  | .error e => .error e
  | .ok absPath =>
    if check then
      match Stat env fs absPath with
      | .error Errno.ENOENT => .error (Error.doesNotExist absPath)
      | .error e => .error (Error.sys e)
      | .ok _ => .ok absPath
    else .ok absPath

/-- Function `IsDirectory` of `utils.go`. -/
def IsDirectory (env : Env) (fs : FS) (path : String) : Option Error :=
  match Stat env fs path with
  | .error Errno.ENOENT => some (Error.dirMissing path)
  | .error e => some (Error.dirAccess path (Error.sys e))
  | .ok dirInfo => if !dirInfo.isDir then some (Error.notADirectory path) else none

/-- The `~` expansion of `ValidateOutputPath` (lines 186-193): the path that is
then checked. -/
def expandOutputPath (env : Env) (outputPath : String) : Except Error String :=
  if hasTildePrefix outputPath then
    match UserHomeDir env with
    | .error e => .error e
    | .ok homeDir => .ok (Join homeDir (String.mk (outputPath.data.drop 1)))
  else .ok outputPath

/-- Function `ValidateOutputPath` of `utils.go`. -/
def ValidateOutputPath (env : Env) (fs : FS) (outputPath : String) : Option Error :=
  match expandOutputPath env outputPath with
  | .error e => some e
  | .ok outputPath =>
    let dir := Dir outputPath
    match IsDirectory env fs dir with
    | some err => some (Error.invalidParent err)
    | none =>
      match Stat env fs outputPath with
      | .ok _ => some (Error.alreadyExists outputPath)
      | .error Errno.ENOENT => none
      | .error e => some (Error.checkExists outputPath (Error.sys e))

/-- The body of the loop of `RestorePermissionsFromJSON` for one record. -/
def restoreOne (env : Env) (perm : FilePermissions) (fs : FS) : Except Error FS :=
  match ValidatePermissionString perm.User with
  | some err => .error (Error.convert perm.Path err)
  | none =>
  match ValidatePermissionString perm.Group with
  | some err => .error (Error.convert perm.Path err)
  | none =>
  match ValidatePermissionString perm.Other with
  | some err => .error (Error.convert perm.Path err)
  | none =>
  match convertPermissionsToOctal perm.User perm.Group perm.Other with
  | .error err => .error (Error.convert perm.Path err)
  | .ok permValue =>
    if Stat env fs perm.Path = .error Errno.ENOENT then
      .error (Error.restoreMissing perm.Path)
    else
      match Chmod env fs perm.Path permValue with
      | .error e =>
        if perm.IsDirectory then .error (Error.restoreDir perm.Path (Error.sys e))
        else .error (Error.restoreFile perm.Path (Error.sys e))
      | .ok fs1 => .ok fs1

/-- Function `RestorePermissionsFromJSON` of `utils.go`, on the decoded record array: the
error it returns and the file system it leaves. -/
def RestorePermissionsFromJSON (env : Env) : List FilePermissions → FS → Option Error × FS
  | [], fs => (none, fs)
  | perm :: rest, fs =>
    match restoreOne env perm fs with
    | .error e => (some e, fs)
    | .ok fs1 => RestorePermissionsFromJSON env rest fs1

/-! ## backup.go -/

/-- Function `BackupPermissions` of `backup.go`: the error it returns and the file system it
leaves. -/
def BackupPermissions (env : Env) (fs : FS) (directory outputFile : String) :
    Option Error × FS :=
  match ValidateOutputPath env fs outputFile with
  | some err => (some (Error.invalidOutputFile err), fs)
  | none =>
  match ResolveAbsolutePath env fs directory [] with
  | .error err => (some (Error.invalidDirectory err), fs)
  | .ok dirPath =>
  match ResolveAbsolutePath env fs outputFile [false] with
  | .error err => (some (Error.invalidOutputPath err), fs)
  | .ok outputPath =>
  match IsDirectory env fs dirPath with
  | some err => (some (Error.dirValidation err), fs)
  | none =>
  match GetDirectoryPermissions env fs dirPath with
  | .error err => (some (Error.gettingPermissions err), fs)
  | .ok permissions =>
  match WriteFile env fs outputPath permissions 0o644 with
  | .error e => (some (Error.writing (Error.sys e)), fs)
  | .ok fs1 => (none, fs1)

/-! ## Sample states -/

/-- The environment of a user `u` working in `/tmp`. -/
def sampleEnv : Env :=
  { home := "/home/u", cwd := some ["tmp"] }

/-- An environment whose `$HOME` names a regular file of the sample tree. -/
def fileHomeEnv : Env :=
  { home := "/tmp/d/a.txt", cwd := some ["tmp"] }

/-- A regular file with the given permission bits. -/
def fileNode (perm : Nat) : Inode :=
  { isDir := false, perm := perm, content := [] }

/-- A directory with the given permission bits. -/
def dirNode (perm : Nat) : Inode :=
  { isDir := true, perm := perm, content := [] }

/-- The sample tree with every permission bit cleared. -/
def sampleFSCleared : FS :=
  { root := dirNode 0o755,
    top :=
      .cons "home" (dirNode 0o755)
        (.cons "u" (dirNode 0o750) .nil .nil)
      (.cons "tmp" (dirNode 0o777)
        (.cons "d" (dirNode 0)
          (.cons "a.txt" (fileNode 0) .nil
          (.cons "sub" (dirNode 0) .nil .nil))
        .nil)
      .nil) }

/-- The tree of the scenario of the specification: `/tmp/d` with the file `a.txt`
(`rw-r--r--`) and the empty directory `sub` (`rwxr-xr-x`), next to `/home/u`. -/
def sampleFS : FS :=
  { root := dirNode 0o755,
    top :=
      .cons "home" (dirNode 0o755)
        (.cons "u" (dirNode 0o750) .nil .nil)
      (.cons "tmp" (dirNode 0o777)
        (.cons "d" (dirNode 0o755)
          (.cons "a.txt" (fileNode 0o644) .nil
          (.cons "sub" (dirNode 0o755) .nil .nil))
        .nil)
      .nil) }

/-! ## Predicates used in the statements -/

/-- The four symbols of a permission string. -/
def inAlphabet (c : Char) : Prop :=
  c = 'r' ∨ c = 'w' ∨ c = 'x' ∨ c = '-'

/-- A position-fixed triad string: read sign, write sign, execute sign. -/
def positionFixed (s : String) : Prop :=
  ∃ a b c, s.data = [a, b, c] ∧ (a = 'r' ∨ a = '-') ∧ (b = 'w' ∨ b = '-') ∧ (c = 'x' ∨ c = '-')

/-- No letter `r`, `w` or `x` occurs twice in the string. -/
def noRepeat (s : String) : Prop :=
  s.data.count 'r' ≤ 1 ∧ s.data.count 'w' ≤ 1 ∧ s.data.count 'x' ≤ 1

/-- The inode a list of path elements leads to. -/
def FS.inode (fs : FS) (cs : List String) : Except Errno Inode :=
  match fs.lookup cs with
  | .ok (i, _) => .ok i
  | .error e => .error e

/-- The inode with its permission bits replaced by those of `mode`. -/
def setPerm (mode : Nat) (i : Inode) : Inode :=
  { i with perm := Perm mode }

/-- The three permission strings of a record pass `ValidatePermissionString`. -/
def validRecord (r : FilePermissions) : Prop :=
  ValidatePermissionString r.User = none ∧ ValidatePermissionString r.Group = none ∧
    ValidatePermissionString r.Other = none

/-- The mode `convertPermissionsToOctal` computes for a record. -/
def modeOf (r : FilePermissions) : Nat :=
  (sumPerm r.User <<< 6) ||| (sumPerm r.Group <<< 3) ||| sumPerm r.Other

/-- One record applied on its own: the mode of the record is set on its path (the
state is left as it is when the path is missing). -/
def applyRecord (env : Env) (fs : FS) (r : FilePermissions) : FS :=
  match Chmod env fs r.Path (modeOf r) with
  | .ok fs1 => fs1
  | .error _ => fs

/-- The lookup function of the state a record leaves: the inode at the place its
path resolves to gets the mode of the record, every other lookup is as before. -/
def viewAfter (env : Env) (v : List String → Except Errno Inode) (r : FilePermissions) :
    List String → Except Errno Inode :=
  fun q => if resolve env r.Path = some q then (v q).map (setPerm (modeOf r)) else v q

/-- An entry exists at the path: `os.Stat` succeeds. -/
def pathExists (env : Env) (fs : FS) (path : String) : Prop :=
  (Stat env fs path).isOk = true

instance (r : FilePermissions) : Decidable (validRecord r) := by
  unfold validRecord
  exact inferInstance

instance (env : Env) (fs : FS) (path : String) : Decidable (pathExists env fs path) := by
  unfold pathExists
  exact inferInstance

/-- A record as the walker writes it, given its path, its three strings and its kind. -/
def mkRecord (path user group other : String) (isDir : Bool) : FilePermissions :=
  { Path := path, FileType := if isDir then "directory" else "file", User := user,
    Group := group, Other := other, IsDirectory := isDir }

/-- The record that clears every bit of `/tmp/d`. -/
def closeDirRecord : FilePermissions :=
  mkRecord "/tmp/d" "---" "---" "---" true

/-- The record that gives `/tmp/d/a.txt` the bits `rwx------`. -/
def openFileRecord : FilePermissions :=
  mkRecord "/tmp/d/a.txt" "rwx" "---" "---" false

/-- A record with an invalid user string. -/
def invalidRecord : FilePermissions :=
  mkRecord "/tmp/d/sub" "rwz" "---" "---" true

/-- A path element that `Clean` keeps as it is: not empty, not `.` and not `..`. -/
def plain (c : String) : Prop :=
  c ≠ "" ∧ c ≠ "." ∧ c ≠ ".."

/-- A name a directory entry can carry: a plain element without a separator. -/
def validName (c : String) : Prop :=
  plain c ∧ '/' ∉ c.data

/-- The names of a listing. -/
def Entries.names : Entries → List String
  | .nil => []
  | .cons n _ _ rest => n :: rest.names

/-- A well-formed listing: every name is valid and no name occurs twice in one
directory, all the way down. -/
def Entries.WF : Entries → Prop
  | .nil => True
  | .cons n _ ch rest => validName n ∧ n ∉ rest.names ∧ ch.WF ∧ rest.WF

instance (c : String) : Decidable (validName c) := by
  unfold validName plain
  exact inferInstance

/-- Well-formedness of a listing can be computed. -/
def Entries.decWF : (es : Entries) → Decidable es.WF
  | .nil => isTrue True.intro
  | .cons n _ ch rest =>
    match decWF ch, decWF rest with
    | isTrue h1, isTrue h2 =>
      if h : validName n ∧ n ∉ rest.names then isTrue ⟨h.1, h.2, h1, h2⟩
      else isFalse (fun hw => h ⟨hw.1, hw.2.1⟩)
    | isFalse h1, _ => isFalse (fun hw => h1 hw.2.2.1)
    | _, isFalse h2 => isFalse (fun hw => h2 hw.2.2.2)

instance (es : Entries) : Decidable es.WF :=
  es.decWF

/-! ## The program over an arbitrary system-call layer

The same functions of `utils.go` and `backup.go`, with the system calls they make
taken as a parameter, so that a statement can be made for every behaviour of the
operating system. -/

/-- The system calls the program makes, as functions of the file-system state, next
to the process environment. The field `walk` is `filepath.Walk`: the entries it visits,
in order, or the path and the error of the first call that fails. -/
structure Sys where
  env : Env
  stat : FS → String → Except Errno Inode
  chmod : FS → String → Nat → Except Errno FS
  walk : FS → String → Except (String × Errno) (List (String × Inode))
  writeFile : FS → String → List FilePermissions → Nat → Except Errno FS

/-- Function `IsDirectory` of `utils.go`. -/
def Sys.IsDirectory (sys : Sys) (fs : FS) (path : String) : Option Error :=
  match sys.stat fs path with
  | .error Errno.ENOENT => some (Error.dirMissing path)
  | .error e => some (Error.dirAccess path (Error.sys e))
  | .ok dirInfo => if !dirInfo.isDir then some (Error.notADirectory path) else none

/-- Function `ValidateOutputPath` of `utils.go`. -/
def Sys.ValidateOutputPath (sys : Sys) (fs : FS) (outputPath : String) : Option Error :=
  match expandOutputPath sys.env outputPath with
  | .error e => some e
  | .ok outputPath =>
    let dir := Dir outputPath
    match sys.IsDirectory fs dir with
    | some err => some (Error.invalidParent err)
    | none =>
      match sys.stat fs outputPath with
      | .ok _ => some (Error.alreadyExists outputPath)
      | .error Errno.ENOENT => none
      | .error e => some (Error.checkExists outputPath (Error.sys e))

/-- Function `ResolveAbsolutePath` of `utils.go`; `checkExistence` is the variadic
argument list. -/
def Sys.ResolveAbsolutePath (sys : Sys) (fs : FS) (path : String)
    (checkExistence : List Bool) : Except Error String :=
  let check := match checkExistence with
    | [] => true
    | b :: _ => b
  match resolveTarget sys.env path with
  | .error e => .error e
  | .ok absPath =>
    if check then
      match sys.stat fs absPath with
      | .error Errno.ENOENT => .error (Error.doesNotExist absPath)
      | .error e => .error (Error.sys e)
      | .ok _ => .ok absPath
    else .ok absPath

/-- Function `GetDirectoryPermissions` of `utils.go`: one record per visited entry,
an error when the walk reports one. -/
def Sys.GetDirectoryPermissions (sys : Sys) (fs : FS) (absDirPath : String) :
    Except Error (List FilePermissions) :=
  match sys.walk fs absDirPath with
  | .error (path, e) =>
    .error (Error.walking absDirPath (Error.walkAccess path (Error.sys e)))
  | .ok visited => .ok (visited.map (fun v => visit v.1 v.2))

/-- The body of the loop of `RestorePermissionsFromJSON` for one record. -/
def Sys.restoreOne (sys : Sys) (perm : FilePermissions) (fs : FS) : Except Error FS :=
  match ValidatePermissionString perm.User with
  | some err => .error (Error.convert perm.Path err)
  | none =>
  match ValidatePermissionString perm.Group with
  | some err => .error (Error.convert perm.Path err)
  | none =>
  match ValidatePermissionString perm.Other with
  | some err => .error (Error.convert perm.Path err)
  | none =>
  match convertPermissionsToOctal perm.User perm.Group perm.Other with
  | .error err => .error (Error.convert perm.Path err)
  | .ok permValue =>
    if sys.stat fs perm.Path = .error Errno.ENOENT then
      .error (Error.restoreMissing perm.Path)
    else
      match sys.chmod fs perm.Path permValue with
      | .error e =>
        if perm.IsDirectory then .error (Error.restoreDir perm.Path (Error.sys e))
        else .error (Error.restoreFile perm.Path (Error.sys e))
      | .ok fs1 => .ok fs1

/-- Function `RestorePermissionsFromJSON` of `utils.go`, on the decoded record array:
the error it returns and the file system it leaves. -/
def Sys.RestorePermissionsFromJSON (sys : Sys) :
    List FilePermissions → FS → Option Error × FS
  | [], fs => (none, fs)
  | perm :: rest, fs =>
    match sys.restoreOne perm fs with
    | .error e => (some e, fs)
    | .ok fs1 => Sys.RestorePermissionsFromJSON sys rest fs1

/-- Function `BackupPermissions` of `backup.go`: the error it returns and the file
system it leaves. -/
def Sys.BackupPermissions (sys : Sys) (fs : FS) (directory outputFile : String) :
    Option Error × FS :=
  match sys.ValidateOutputPath fs outputFile with
  | some err => (some (Error.invalidOutputFile err), fs)
  | none =>
  match sys.ResolveAbsolutePath fs directory [] with
  | .error err => (some (Error.invalidDirectory err), fs)
  | .ok dirPath =>
  match sys.ResolveAbsolutePath fs outputFile [false] with
  | .error err => (some (Error.invalidOutputPath err), fs)
  | .ok outputPath =>
  match sys.IsDirectory fs dirPath with
  | some err => (some (Error.dirValidation err), fs)
  | none =>
  match sys.GetDirectoryPermissions fs dirPath with
  | .error err => (some (Error.gettingPermissions err), fs)
  | .ok permissions =>
  match sys.writeFile fs outputPath permissions 0o644 with
  | .error e => (some (Error.writing (Error.sys e)), fs)
  | .ok fs1 => (none, fs1)

/-! ## The system calls of a process that owns every entry

The kernel resolves a path name as it is given, element by element: every element
passed must be a directory the process may search, `..` steps to the parent, and the
empty path names nothing. The superuser passes every access check; any other process
is taken to own the entries, so that the owner bits decide. -/

/-- The process may search the directory (owner execute bit). -/
def maySearch (root : Bool) (i : Inode) : Bool :=
  root || (i.perm &&& 0o100 != 0)

/-- The process may read the directory (owner read bit). -/
def mayRead (root : Bool) (i : Inode) : Bool :=
  root || (i.perm &&& 0o400 != 0)

/-- The process may write the entry (owner write bit). -/
def mayWrite (root : Bool) (i : Inode) : Bool :=
  root || (i.perm &&& 0o200 != 0)

/-- The path walk of the kernel: `st` is the place reached so far (its elements, the
deepest first), the list holds the elements still to pass. -/
def namei (root : Bool) (fs : FS) : List String → List String → Except Errno (List String)
  | [], st => .ok st
  | c :: cs, st =>
    match fs.inode st.reverse with
    | .error e => .error e
    | .ok d =>
      if !d.isDir then .error Errno.ENOTDIR
      else if c = "" then namei root fs cs st
      else if !maySearch root d then .error Errno.EACCES
      else if c = "." then namei root fs cs st
      else if c = ".." then namei root fs cs st.tail
      else
        match fs.inode (c :: st).reverse with
        | .error e => .error e
        | .ok _ => namei root fs cs (c :: st)

/-- Where the walk of a path starts: at `/` for an absolute path, at the working
directory otherwise. -/
def walkStart (env : Env) (path : String) : Option (List String) :=
  if IsAbs path then some []
  else
    match env.cwd with
    | none => none
    | some cs => some ((components (render true cs)).foldl (cleanStep true) [])

/-- The place a path name leads to, as the kernel resolves it. -/
def locate (env : Env) (root : Bool) (fs : FS) (path : String) :
    Except Errno (List String) :=
  if path = "" then .error Errno.ENOENT
  else
    match walkStart env path with
    | none => .error Errno.ENOENT
    | some st =>
      match namei root fs (components path) st with
      | .ok st1 => .ok st1.reverse
      | .error e => .error e

/-- Go `os.Stat` (and `os.Lstat`) on the kernel's resolution. -/
def posixStat (env : Env) (root : Bool) (fs : FS) (path : String) : Except Errno Inode :=
  match locate env root fs path with
  | .ok pos => fs.inode pos
  | .error e => .error e

/-- Go `os.Chmod` on the kernel's resolution: the owner (or the superuser) sets the
permission bits of the entry found. -/
def posixChmod (env : Env) (root : Bool) (fs : FS) (path : String) (mode : Nat) :
    Except Errno FS :=
  match locate env root fs path with
  | .ok pos => .ok (fs.modify (setPerm mode) pos)
  | .error e => .error e

/-- Go `os.WriteFile` on the kernel's resolution: the directory of the last element
is resolved, then a regular file the process may write is overwritten, a directory is
refused, and a missing entry is created when the process may write the directory. -/
def posixWriteFile (env : Env) (root : Bool) (fs : FS) (path : String)
    (data : List FilePermissions) (perm : Nat) : Except Errno FS :=
  if path = "" then .error Errno.ENOENT
  else
    match walkStart env path, (components path).getLast? with
    | some st, some c =>
      match namei root fs (components path).dropLast st with
      | .error e => .error e
      | .ok pst =>
        match fs.inode pst.reverse with
        | .error e => .error e
        | .ok d =>
          if !d.isDir then .error Errno.ENOTDIR
          else if c = "" ∨ c = "." ∨ c = ".." then .error Errno.EISDIR
          else if !maySearch root d then .error Errno.EACCES
          else
            match fs.inode (c :: pst).reverse with
            | .ok i =>
              if i.isDir then .error Errno.EISDIR
              else if !mayWrite root i then .error Errno.EACCES
              else .ok (fs.modify (fun j => { j with content := data }) (c :: pst).reverse)
            | .error _ =>
              if !mayWrite root d then .error Errno.EACCES
              else .ok { fs with top := fs.top.create c (Inode.mk false (Perm perm) data)
                                          pst.reverse }
    | _, _ => .error Errno.ENOENT

/-- The descent of `filepath.Walk` below the directory `path`, which the caller has
found readable and searchable: each entry is visited, then the entries below it (a
directory that cannot be read, or whose entries cannot be reached, ends the walk with
an error), then the next entry. -/
def walkBelow (root : Bool) (path : String) :
    Entries → Except (String × Errno) (List (String × Inode))
  | .nil => .ok []
  | .cons name info ch rest =>
    let below : Except (String × Errno) (List (String × Inode)) :=
      if info.isDir then
        if !mayRead root info then .error (Join path name, Errno.EACCES)
        else
          match ch.names with
          | [] => .ok []
          | n :: _ =>
            if !maySearch root info then
              .error (Join (Join path name) n, Errno.EACCES)
            else walkBelow root (Join path name) ch
      else .ok []
    match below, walkBelow root path rest with
    | .ok b, .ok a => .ok ((Join path name, info) :: (b ++ a))
    | .error e, _ => .error e
    | _, .error e => .error e

/-- Go `filepath.Walk` on the kernel's resolution. -/
def posixWalk (env : Env) (root : Bool) (fs : FS) (path : String) :
    Except (String × Errno) (List (String × Inode)) :=
  match locate env root fs path with
  | .error e => .error (path, e)
  | .ok pos =>
    match fs.lookup pos with
    | .error e => .error (path, e)
    | .ok (info, ch) =>
      if info.isDir then
        if !mayRead root info then .error (path, Errno.EACCES)
        else
          match ch.names with
          | [] => .ok [(path, info)]
          | n :: _ =>
            if !maySearch root info then .error (Join path n, Errno.EACCES)
            else
              match walkBelow root path ch with
              | .ok b => .ok ((path, info) :: b)
              | .error e => .error e
      else .ok [(path, info)]

/-- The system-call layer of a process that owns every entry (`root` for the
superuser). -/
def posixSys (env : Env) (root : Bool) : Sys :=
  { env := env, stat := posixStat env root, chmod := posixChmod env root,
    walk := posixWalk env root, writeFile := posixWriteFile env root }

/-! ## The system calls of a privileged process on cleaned path names -/

/-- The entries the descent of `filepath.Walk` visits below the directory `path`, in
order. -/
def walkPairs (path : String) : Entries → List (String × Inode)
  | .nil => []
  | .cons name info ch rest =>
    (Join path name, info)
      :: ((if info.isDir then walkPairs (Join path name) ch else [])
          ++ walkPairs path rest)

/-- Go `filepath.Walk` on the cleaned path name, without access checks. -/
def lexicalWalk (env : Env) (fs : FS) (path : String) :
    Except (String × Errno) (List (String × Inode)) :=
  match resolve env path with
  | none => .error (path, Errno.ENOENT)
  | some cs =>
    match fs.lookup cs with
    | .error e => .error (path, e)
    | .ok (info, ch) =>
      .ok ((path, info) :: (if info.isDir then walkPairs path ch else []))

/-- The system-call layer made of `Stat`, `Chmod`, `WriteFile` and the walk above. -/
def lexicalSys (env : Env) : Sys :=
  { env := env, stat := Stat env, chmod := Chmod env, walk := lexicalWalk env,
    writeFile := WriteFile env }

/-! ## Predicates on a run of the applier -/

/-- Every step of the loop succeeds for every record of the list, in order, and the
run leaves the second state: the strings are valid, `os.Stat` does not report the path
missing, and `os.Chmod` succeeds. -/
def Sys.passes (sys : Sys) : List FilePermissions → FS → FS → Prop
  | [], fs, fs2 => fs2 = fs
  | r :: rs, fs, fs2 =>
    validRecord r ∧ sys.stat fs r.Path ≠ .error Errno.ENOENT ∧
      ∃ fs1, sys.chmod fs r.Path (modeOf r) = .ok fs1 ∧ Sys.passes sys rs fs1 fs2

/-- A step of the loop fails for the record: a string is invalid, or `os.Stat`
reports the path missing, or `os.Chmod` fails. -/
def Sys.failsAt (sys : Sys) (r : FilePermissions) (fs : FS) : Prop :=
  ¬ validRecord r ∨ sys.stat fs r.Path = .error Errno.ENOENT ∨
    ∃ e, sys.chmod fs r.Path (modeOf r) = .error e

/-- The state left by the `os.Chmod` calls of the records, in order (`none` when one
of them fails). -/
def Sys.chmodAll (sys : Sys) : List FilePermissions → FS → Option FS
  | [], fs => some fs
  | r :: rs, fs =>
    match sys.chmod fs r.Path (modeOf r) with
    | .ok fs1 => Sys.chmodAll sys rs fs1
    | .error _ => none

/-! ## The permission codec -/

theorem land_mod8 (n k : Nat) (hk : k < 8) : (n % 8) &&& k = n &&& k := by
  have h7 : n % 8 = n &&& 7 := (Nat.and_pow_two_sub_one_eq_mod n 3).symm
  have hk7 : 7 &&& k = k := by interval_cases k <;> decide
  rw [h7, Nat.and_assoc, hk7]

theorem rwx_mod8 (n : Nat) : rwx n = rwx (n % 8) := by
  unfold rwx
  rw [land_mod8 n 4 (by decide), land_mod8 n 2 (by decide), land_mod8 n 1 (by decide)]

theorem testBit_mod8 (n i : Nat) (hi : i < 3) : (n % 8).testBit i = n.testBit i := by
  have h := Nat.testBit_mod_two_pow n 3 i
  simp only [show (2 : Nat) ^ 3 = 8 from rfl] at h
  rw [h]; simp [hi]

theorem sumPerm_rwx (n : Nat) (hn : n < 8) : sumPerm (rwx n) = n := by
  interval_cases n <;> decide

theorem inClass_iff (c : Char) : inClass c = true ↔ inAlphabet c := by
  simp [inClass, inAlphabet, or_assoc]

theorem validPermMatch_iff (s : String) :
    validPermMatch s = true ↔ ∃ a b c, s.data = [a, b, c] ∧ inClass a = true ∧
      inClass b = true ∧ inClass c = true := by
  unfold validPermMatch
  constructor
  · intro h
    match hs : s.data, h with
    | [a, b, c], h =>
      simp [matchClassN] at h
      exact ⟨a, b, c, rfl, h.1, h.2.1, h.2.2⟩
    | [], h => simp [matchClassN] at h
    | [_], h => simp [matchClassN] at h
    | [_, _], h => simp [matchClassN] at h
    | _ :: _ :: _ :: _ :: _, h => simp [matchClassN] at h
  · rintro ⟨a, b, c, hs, ha, hb, hc⟩
    rw [hs]; simp [matchClassN, ha, hb, hc]

theorem utf8Size_of_inClass (c : Char) (h : inClass c = true) : c.utf8Size = 1 := by
  rcases (inClass_iff c).1 h with h | h | h | h <;> subst h <;> decide

theorem validate_none_iff (s : String) :
    ValidatePermissionString s = none ↔ validPermMatch s = true := by
  unfold ValidatePermissionString
  constructor
  · intro h
    by_cases h1 : goLen s != 3
    · simp [h1] at h
    · by_cases h2 : validPermMatch s = true
      · exact h2
      · simp [h1, h2] at h
  · intro h
    obtain ⟨a, b, c, hs, ha, hb, hc⟩ := (validPermMatch_iff s).1 h
    have hl : goLen s = 3 := by
      simp [goLen, hs, utf8Size_of_inClass a ha, utf8Size_of_inClass b hb,
        utf8Size_of_inClass c hc]
    simp [hl, h]

theorem triads_of_mode (m : Nat) :
    ((Perm m >>> 6) &&& 7) < 8 ∧ ((Perm m >>> 3) &&& 7) < 8 ∧ (Perm m &&& 7) < 8 := by
  have h : ∀ x : Nat, x &&& 7 < 8 := fun x =>
    Nat.lt_of_le_of_lt Nat.and_le_right (by decide)
  exact ⟨h _, h _, h _⟩

theorem combine_triads (u g o : Nat) (hu : u < 8) (hg : g < 8) (ho : o < 8) :
    (u <<< 6) ||| (g <<< 3) ||| o < 512 ∧
    (Perm ((u <<< 6) ||| (g <<< 3) ||| o) >>> 6) &&& 7 = u ∧
    (Perm ((u <<< 6) ||| (g <<< 3) ||| o) >>> 3) &&& 7 = g ∧
    Perm ((u <<< 6) ||| (g <<< 3) ||| o) &&& 7 = o := by
  interval_cases u <;> interval_cases g <;> interval_cases o <;> decide

theorem split_mode (m : Nat) :
    (((Perm m >>> 6) &&& 7) <<< 6) ||| (((Perm m >>> 3) &&& 7) <<< 3) ||| (Perm m &&& 7)
      = Perm m := by
  apply Nat.eq_of_testBit_eq
  intro i
  simp only [Nat.testBit_or, Nat.testBit_shiftLeft, Nat.testBit_and, Nat.testBit_shiftRight,
    Perm]
  have h7 : ∀ j, Nat.testBit 7 j = decide (j < 3) := fun j =>
    Nat.testBit_two_pow_sub_one 3 j
  have h511 : ∀ j, Nat.testBit 0o777 j = decide (j < 9) := fun j =>
    Nat.testBit_two_pow_sub_one 9 j
  simp only [h7, h511]
  by_cases h6 : 6 ≤ i
  · by_cases h9 : i < 9
    · have : 6 + (i - 6) = i := by omega
      have h3 : 3 ≤ i := by omega
      have h3' : ¬ i - 3 < 3 := by omega
      have h3'' : i - 6 < 3 := by omega
      have h30 : ¬ i < 3 := by omega
      simp [h6, h9, this, h3, h3', h3'', h30]
    · have h3 : 3 ≤ i := by omega
      have h3' : ¬ i - 3 < 3 := by omega
      have h30 : ¬ i < 3 := by omega
      have e3 : 3 + (i - 3) = i := by omega
      have e6 : 6 + (i - 6) = i := by omega
      simp [h6, h9, h3, h3', h30, e3, e6]
  · by_cases h3 : 3 ≤ i
    · have : 3 + (i - 3) = i := by omega
      have h9 : i < 9 := by omega
      have h3' : i - 3 < 3 := by omega
      have h30 : ¬ i < 3 := by omega
      simp [h6, h3, this, h9, h3', h30]
    · have h9 : i < 9 := by omega
      have h30 : i < 3 := by omega
      simp [h6, h3, h9, h30]

theorem decode_encode (m : Nat) :
    convertPermissionsToOctal (rwx ((Perm m >>> 6) &&& 7)) (rwx ((Perm m >>> 3) &&& 7))
      (rwx (Perm m &&& 7)) = .ok (Perm m) := by
  obtain ⟨h1, h2, h3⟩ := triads_of_mode m
  simp only [convertPermissionsToOctal, sumPerm_rwx _ h1, sumPerm_rwx _ h2, sumPerm_rwx _ h3,
    split_mode]

theorem Perm_of_lt (m : Nat) (h : m < 512) : Perm m = m :=
  Nat.and_pow_two_sub_one_of_lt_two_pow (n := 9) h

/-- C2 (codec invertibility). For triads `u`, `g`, `o` in 0..7, converting their
symbolic forms returns no error and the value `(u << 6) | (g << 3) | o`; decoding the
symbolic form of a single triad gives it back; the combined value is a 9-bit mode whose
three triads, as the walker extracts them, are again `u`, `g`, `o`; and every 9-bit
mode `m` survives the walker's encoding followed by the conversion. -/
theorem codec_invertible (u g o : Nat) (hu : u < 8) (hg : g < 8) (ho : o < 8) :
    convertPermissionsToOctal (rwx u) (rwx g) (rwx o)
        = .ok ((u <<< 6) ||| (g <<< 3) ||| o) ∧
      sumPerm (rwx u) = u ∧ sumPerm (rwx g) = g ∧ sumPerm (rwx o) = o ∧
      ((u <<< 6) ||| (g <<< 3) ||| o < 512 ∧
        (Perm ((u <<< 6) ||| (g <<< 3) ||| o) >>> 6) &&& 7 = u ∧
        (Perm ((u <<< 6) ||| (g <<< 3) ||| o) >>> 3) &&& 7 = g ∧
        Perm ((u <<< 6) ||| (g <<< 3) ||| o) &&& 7 = o) ∧
      ∀ m, m < 512 →
        convertPermissionsToOctal (rwx ((Perm m >>> 6) &&& 7)) (rwx ((Perm m >>> 3) &&& 7))
          (rwx (Perm m &&& 7)) = .ok m := by
  refine ⟨?_, sumPerm_rwx u hu, sumPerm_rwx g hg, sumPerm_rwx o ho,
    combine_triads u g o hu hg ho, ?_⟩
  · simp only [convertPermissionsToOctal, sumPerm_rwx u hu, sumPerm_rwx g hg,
      sumPerm_rwx o ho]
  · intro m hm
    have h := decode_encode m
    rw [Perm_of_lt m hm] at h
    rw [Perm_of_lt m hm]
    exact h

/-- Witness of C2 at the mode `rwxr-xr--`. -/
theorem codec_invertible_witness :
    convertPermissionsToOctal (rwx 7) (rwx 5) (rwx 4) = .ok ((7 <<< 6) ||| (5 <<< 3) ||| 4) ∧
      sumPerm (rwx 7) = 7 ∧ sumPerm (rwx 5) = 5 ∧ sumPerm (rwx 4) = 4 ∧
      ((7 <<< 6) ||| (5 <<< 3) ||| 4 < 512 ∧
        (Perm ((7 <<< 6) ||| (5 <<< 3) ||| 4) >>> 6) &&& 7 = 7 ∧
        (Perm ((7 <<< 6) ||| (5 <<< 3) ||| 4) >>> 3) &&& 7 = 5 ∧
        Perm ((7 <<< 6) ||| (5 <<< 3) ||| 4) &&& 7 = 4) ∧
      ∀ m, m < 512 →
        convertPermissionsToOctal (rwx ((Perm m >>> 6) &&& 7)) (rwx ((Perm m >>> 3) &&& 7))
          (rwx (Perm m &&& 7)) = .ok m :=
  codec_invertible 7 5 4 (by decide) (by decide) (by decide)

theorem validate_isSome_iff (s : String) :
    (ValidatePermissionString s).isSome = true ↔ ¬ validPermMatch s = true := by
  rw [← validate_none_iff]
  cases ValidatePermissionString s <;> simp

theorem validPermMatch_iff_alphabet (s : String) :
    validPermMatch s = true ↔ s.length = 3 ∧ ∀ c ∈ s.data, inAlphabet c := by
  rw [validPermMatch_iff]
  constructor
  · rintro ⟨a, b, c, hs, ha, hb, hc⟩
    refine ⟨by simp [String.length, hs], ?_⟩
    intro x hx
    rw [hs] at hx
    simp at hx
    rcases hx with h | h | h <;> subst h
    · exact (inClass_iff _).1 ha
    · exact (inClass_iff _).1 hb
    · exact (inClass_iff _).1 hc
  · rintro ⟨hl, hall⟩
    match hs : s.data with
    | [a, b, c] =>
      rw [hs] at hall
      exact ⟨a, b, c, rfl, (inClass_iff a).2 (hall a (by simp)),
        (inClass_iff b).2 (hall b (by simp)), (inClass_iff c).2 (hall c (by simp))⟩
    | [] => simp [String.length, hs] at hl
    | [_] => simp [String.length, hs] at hl
    | [_, _] => simp [String.length, hs] at hl
    | _ :: _ :: _ :: _ :: _ => simp [String.length, hs] at hl

/-- C3 (codec rejection). `ValidatePermissionString s` returns an error exactly when
`s` does not have exactly 3 characters or holds a character outside `r`, `w`, `x`, `-`;
every string of 3 characters of that alphabet is accepted, whatever the positions. -/
theorem validate_rejects_iff (s : String) :
    ((ValidatePermissionString s).isSome = true ↔
        (s.length ≠ 3 ∨ ∃ c ∈ s.data, ¬ inAlphabet c)) ∧
      ∀ a b c : Char, inAlphabet a → inAlphabet b → inAlphabet c →
        ValidatePermissionString (String.mk [a, b, c]) = none := by
  constructor
  · rw [validate_isSome_iff, validPermMatch_iff_alphabet]
    constructor
    · intro h
      by_cases hl : s.length = 3
      · right
        by_contra hne
        apply h
        refine ⟨hl, fun c hc => ?_⟩
        by_contra hc2
        exact hne ⟨c, hc, hc2⟩
      · exact Or.inl hl
    · rintro (h | ⟨c, hc, hbad⟩) ⟨hl, hall⟩
      · exact h hl
      · exact hbad (hall c hc)
  · intro a b c ha hb hc
    rw [validate_none_iff, validPermMatch_iff]
    exact ⟨a, b, c, rfl, (inClass_iff a).2 ha, (inClass_iff b).2 hb, (inClass_iff c).2 hc⟩

/-- Witness of C3: a string that is too short is rejected, and `xr-`, whose
signs stand in unusual positions, is accepted. -/
theorem validate_rejects_iff_witness :
    (ValidatePermissionString "rw").isSome = true ∧
      ValidatePermissionString (String.mk ['x', 'r', '-']) = none :=
  ⟨(validate_rejects_iff "rw").1.2 (Or.inl (by decide)),
    (validate_rejects_iff "").2 'x' 'r' '-' (by simp [inAlphabet]) (by simp [inAlphabet])
      (by simp [inAlphabet])⟩

theorem rwx_data (n : Nat) :
    (rwx n).data = [if n.testBit 2 then 'r' else '-', if n.testBit 1 then 'w' else '-',
      if n.testBit 0 then 'x' else '-'] := by
  rw [rwx_mod8, ← testBit_mod8 n 2 (by decide), ← testBit_mod8 n 1 (by decide),
    ← testBit_mod8 n 0 (by decide)]
  have h : n % 8 < 8 := Nat.mod_lt _ (by decide)
  generalize n % 8 = m at h
  interval_cases m <;> decide

theorem positionFixed_rwx (n : Nat) : positionFixed (rwx n) := by
  refine ⟨_, _, _, rwx_data n, ?_, ?_, ?_⟩
  · by_cases h : n.testBit 2 <;> simp [h]
  · by_cases h : n.testBit 1 <;> simp [h]
  · by_cases h : n.testBit 0 <;> simp [h]

theorem positionFixed_alphabet (s : String) (h : positionFixed s) :
    s.length = 3 ∧ ∀ c ∈ s.data, inAlphabet c := by
  obtain ⟨a, b, c, hs, ha, hb, hc⟩ := h
  refine ⟨by simp [String.length, hs], ?_⟩
  intro x hx
  rw [hs] at hx
  simp at hx
  unfold inAlphabet
  rcases hx with h | h | h <;> subst h
  · rcases ha with h | h <;> simp [h]
  · rcases hb with h | h <;> simp [h]
  · rcases hc with h | h <;> simp [h]

theorem walkEntries_visit (es : Entries) :
    ∀ path, ∀ r ∈ walkEntries path es, ∃ p info, r = visit p info := by
  induction es with
  | nil => intro path r hr; simp [walkEntries] at hr
  | cons name info ch rest ihc ihr =>
    intro path r hr
    simp only [walkEntries, List.mem_cons, List.mem_append] at hr
    rcases hr with h | h | h
    · exact ⟨_, _, h⟩
    · by_cases hd : info.isDir = true
      · rw [if_pos hd] at h
        exact ihc _ r h
      · rw [if_neg hd] at h
        simp at h
    · exact ihr _ r h

theorem recorded_visit (env : Env) (fs : FS) (dir : String) (recs : List FilePermissions)
    (h : GetDirectoryPermissions env fs dir = .ok recs) :
    ∀ r ∈ recs, ∃ p info, r = visit p info := by
  unfold GetDirectoryPermissions at h
  split at h
  · cases h
  · split at h
    · cases h
    · rename_i info ch _
      injection h with h
      subst h
      intro r hr
      simp only [List.mem_cons] at hr
      rcases hr with h | h
      · exact ⟨_, _, h⟩
      · by_cases hd : info.isDir = true
        · rw [if_pos hd] at h
          exact walkEntries_visit ch _ r h
        · rw [if_neg hd] at h
          simp at h

/-- C5 (bit layout of the symbolic form). For every numeric input `n`, `rwx n` has
exactly 3 characters: position 0 is `r` if bit 2 of `n` is set and `-` otherwise,
position 1 is `w` for bit 1, position 2 is `x` for bit 0; bits above bit 2 are ignored.
Hence every string recorded by the tree walker is position-fixed and drawn from the
four-symbol alphabet. -/
theorem rwx_bit_layout (n : Nat) :
    (rwx n).data = [if n.testBit 2 then 'r' else '-', if n.testBit 1 then 'w' else '-',
        if n.testBit 0 then 'x' else '-'] ∧
      (rwx n).length = 3 ∧ rwx n = rwx (n % 8) ∧
      ∀ (env : Env) (fs : FS) (dir : String) (recs : List FilePermissions),
        GetDirectoryPermissions env fs dir = .ok recs →
        ∀ r ∈ recs, ∀ s, (s = r.User ∨ s = r.Group ∨ s = r.Other) →
          positionFixed s ∧ s.length = 3 ∧ ∀ c ∈ s.data, inAlphabet c := by
  refine ⟨rwx_data n, (positionFixed_alphabet _ (positionFixed_rwx n)).1, rwx_mod8 n, ?_⟩
  intro env fs dir recs h r hr s hs
  obtain ⟨p, info, hv⟩ := recorded_visit env fs dir recs h r hr
  have hpf : positionFixed s := by
    subst hv
    rcases hs with h | h | h <;> subst h <;> exact positionFixed_rwx _
  exact ⟨hpf, positionFixed_alphabet s hpf⟩

/-- Witness of C5: the walk of the sample tree, and an input with a bit above bit 2. -/
theorem rwx_bit_layout_witness :
    (rwx 13).data = ['r', '-', 'x'] ∧
      ∀ r ∈ [visit "/tmp/d" (dirNode 0o755), visit "/tmp/d/a.txt" (fileNode 0o644),
          visit "/tmp/d/sub" (dirNode 0o755)],
        ∀ s, (s = r.User ∨ s = r.Group ∨ s = r.Other) →
          positionFixed s ∧ s.length = 3 ∧ ∀ c ∈ s.data, inAlphabet c :=
  ⟨(rwx_bit_layout 13).1,
    (rwx_bit_layout 13).2.2.2 sampleEnv sampleFS "/tmp/d" _ (by decide)⟩

theorem valid_triad_sum (s : String) (h : ValidatePermissionString s = none) :
    sumPerm s ≤ 12 ∧ (noRepeat s → sumPerm s ≤ 7) := by
  obtain ⟨a, b, c, hs, ha, hb, hc⟩ := (validPermMatch_iff s).1 ((validate_none_iff s).1 h)
  simp only [sumPerm, noRepeat, hs]
  rcases (inClass_iff a).1 ha with h | h | h | h <;>
    rcases (inClass_iff b).1 hb with h2 | h2 | h2 | h2 <;>
    rcases (inClass_iff c).1 hc with h3 | h3 | h3 | h3 <;>
    subst h h2 h3 <;> decide

/-- C4, counterexample. The string `rrr` is accepted by `ValidatePermissionString`, yet
its triad value is 12; as the user string it yields the mode 0o1400, above 0o777; as the
group string it yields 0o140, which sets a bit of the user class although the user
string is `---`. -/
theorem triad_range_counterexample :
    ValidatePermissionString "rrr" = none ∧ ValidatePermissionString "---" = none ∧
      sumPerm "rrr" = 12 ∧ ¬ sumPerm "rrr" ≤ 7 ∧
      convertPermissionsToOctal "rrr" "---" "---" = .ok 0o1400 ∧ ¬ 0o1400 ≤ 0o777 ∧
      convertPermissionsToOctal "---" "rrr" "---" = .ok 0o140 ∧
      convertPermissionsToOctal "---" "---" "---" = .ok 0 ∧
      (0o140 >>> 6) &&& 7 ≠ (0 >>> 6) &&& 7 := by
  decide

/-- C4, amended. For strings `user`, `group`, `other` that `ValidatePermissionString`
accepts, each triad value lies in 0..12, and it lies in 0..7 when no letter occurs twice
in the string (as in every string written by `rwx`). When the three values lie in 0..7,
the combined mode lies in 0..0o777 and the three bits of each class are the value of
that class's string alone. -/
theorem triad_range_amended (user group other : String)
    (hu : ValidatePermissionString user = none)
    (hg : ValidatePermissionString group = none)
    (ho : ValidatePermissionString other = none) :
    (sumPerm user ≤ 12 ∧ sumPerm group ≤ 12 ∧ sumPerm other ≤ 12) ∧
      ((noRepeat user → sumPerm user ≤ 7) ∧ (noRepeat group → sumPerm group ≤ 7) ∧
        (noRepeat other → sumPerm other ≤ 7)) ∧
      (sumPerm user ≤ 7 → sumPerm group ≤ 7 → sumPerm other ≤ 7 →
        ∃ m, convertPermissionsToOctal user group other = .ok m ∧ m ≤ 0o777 ∧
          (m >>> 6) &&& 7 = sumPerm user ∧ (m >>> 3) &&& 7 = sumPerm group ∧
          m &&& 7 = sumPerm other) := by
  obtain ⟨hu1, hu2⟩ := valid_triad_sum user hu
  obtain ⟨hg1, hg2⟩ := valid_triad_sum group hg
  obtain ⟨ho1, ho2⟩ := valid_triad_sum other ho
  refine ⟨⟨hu1, hg1, ho1⟩, ⟨hu2, hg2, ho2⟩, ?_⟩
  intro cu cg co
  obtain ⟨h1, h2, h3, h4⟩ := combine_triads _ _ _ (Nat.lt_succ_of_le cu)
    (Nat.lt_succ_of_le cg) (Nat.lt_succ_of_le co)
  refine ⟨_, rfl, Nat.le_of_lt_succ h1, ?_, ?_, ?_⟩
  · rw [Perm_of_lt _ h1] at h2; exact h2
  · rw [Perm_of_lt _ h1] at h3; exact h3
  · rw [Perm_of_lt _ h1] at h4; exact h4

/-- Witness of the amended C4 at the strings of the mode `rw-r-xr--`. -/
theorem triad_range_amended_witness :
    (sumPerm "rw-" ≤ 12 ∧ sumPerm "r-x" ≤ 12 ∧ sumPerm "r--" ≤ 12) ∧
      ((noRepeat "rw-" → sumPerm "rw-" ≤ 7) ∧ (noRepeat "r-x" → sumPerm "r-x" ≤ 7) ∧
        (noRepeat "r--" → sumPerm "r--" ≤ 7)) ∧
      (sumPerm "rw-" ≤ 7 → sumPerm "r-x" ≤ 7 → sumPerm "r--" ≤ 7 →
        ∃ m, convertPermissionsToOctal "rw-" "r-x" "r--" = .ok m ∧ m ≤ 0o777 ∧
          (m >>> 6) &&& 7 = sumPerm "rw-" ∧ (m >>> 3) &&& 7 = sumPerm "r-x" ∧
          m &&& 7 = sumPerm "r--") :=
  triad_range_amended "rw-" "r-x" "r--" (by decide) (by decide) (by decide)

/-! ## The file system -/

theorem child_modify (f : Inode → Inode) (c : String) (cs : List String) (n : String) :
    ∀ es : Entries, (es.modify f (c :: cs)).child n =
      if n = c then
        match cs with
        | [] => (es.child n).map (fun p => (f p.1, p.2))
        | _ :: _ => (es.child n).map (fun p => (p.1, p.2.modify f cs))
      else es.child n := by
  intro es
  induction es with
  | nil => cases cs <;> simp [Entries.modify, Entries.child]
  | cons m i ch rest _ ihr =>
    by_cases hmc : m = c
    · subst hmc
      by_cases hn : n = m
      · subst hn
        cases cs <;> simp [Entries.modify, Entries.child]
      · have hn2 : ¬ m = n := fun h => hn h.symm
        cases cs <;> simp [Entries.modify, Entries.child, hn, hn2]
    · by_cases hn : n = c
      · subst hn
        simp only [Entries.modify, if_neg hmc, Entries.child, ihr, if_true]
      · simp only [Entries.modify, if_neg hmc, Entries.child, ihr, if_neg hn]

theorem lookupFrom_isDir_congr (i j : Inode) (h : j.isDir = i.isDir) (ch : Entries)
    (c : String) (cs : List String) :
    lookupFrom j ch (c :: cs) = lookupFrom i ch (c :: cs) := by
  simp only [lookupFrom, h]

/-- The inode part of a lookup result. -/
theorem inodeOf_eq (r : Except Errno (Inode × Entries)) :
    (match r with
      | .ok (i, _) => (Except.ok i : Except Errno Inode)
      | .error e => .error e) = r.map Prod.fst := by
  cases r <;> rfl

theorem lookupFrom_modify (f : Inode → Inode) (hf : ∀ i, (f i).isDir = i.isDir) :
    ∀ (q : List String) (i : Inode) (ch : Entries) (c : String) (cs : List String),
      (lookupFrom i (ch.modify f (c :: cs)) q).map Prod.fst =
        if q = c :: cs then ((lookupFrom i ch q).map Prod.fst).map f
        else (lookupFrom i ch q).map Prod.fst := by
  intro q
  induction q with
  | nil => intro i ch c cs; simp [lookupFrom, Except.map]
  | cons d q ih =>
    intro i ch c cs
    by_cases hdir : i.isDir = true
    · simp only [lookupFrom, hdir, Bool.not_true, Bool.false_eq_true, if_false]
      rw [child_modify]
      by_cases hd : d = c
      · subst hd
        simp only [if_true]
        cases hch : ch.child d with
        | none => cases cs <;> simp [Except.map]
        | some p =>
          obtain ⟨j, g⟩ := p
          cases cs with
          | nil =>
            simp only [Option.map]
            cases q with
            | nil => simp [lookupFrom, Except.map]
            | cons e q =>
              rw [lookupFrom_isDir_congr j (f j) (hf j)]
              simp
          | cons c2 cs =>
            simp only [Option.map]
            rw [ih j g c2 cs]
            by_cases hq : q = c2 :: cs
            · simp [hq]
            · simp [hq]
      · simp only [if_neg hd]
        have : ¬ (d :: q = c :: cs) := fun h => hd (List.cons.inj h).1
        simp only [if_neg this]
    · simp only [lookupFrom, hdir, Bool.not_false, if_true]
      split <;> simp [Except.map]

theorem FS.inode_eq (fs : FS) (q : List String) :
    fs.inode q = (lookupFrom fs.root fs.top q).map Prod.fst := by
  unfold FS.inode FS.lookup
  exact inodeOf_eq _

/-- Lookup after a change of one inode that keeps its type: the inode at the changed
place is the image of the old one, every other lookup is as before. -/
theorem inode_modify (fs : FS) (f : Inode → Inode) (hf : ∀ i, (f i).isDir = i.isDir)
    (cs q : List String) :
    (fs.modify f cs).inode q = if q = cs then (fs.inode q).map f else fs.inode q := by
  rw [FS.inode_eq, FS.inode_eq]
  cases cs with
  | nil =>
    simp only [FS.modify]
    cases q with
    | nil => simp [lookupFrom, Except.map]
    | cons d q =>
      rw [lookupFrom_isDir_congr fs.root (f fs.root) (hf _)]
      simp
  | cons c cs =>
    simp only [FS.modify]
    exact lookupFrom_modify f hf q fs.root fs.top c cs

/-! ## The applier -/

theorem Stat_eq (env : Env) (fs : FS) (path : String) :
    Stat env fs path =
      match resolve env path with
      | none => .error Errno.ENOENT
      | some cs => fs.inode cs := by
  unfold Stat FS.inode
  rfl

theorem pathExists_iff (env : Env) (fs : FS) (path : String) :
    pathExists env fs path ↔ ∃ cs i, resolve env path = some cs ∧ fs.inode cs = .ok i := by
  unfold pathExists
  rw [Stat_eq]
  cases resolve env path with
  | none => simp [Except.isOk, Except.toBool]
  | some cs =>
    cases hi : fs.inode cs with
    | error e => simp [Except.isOk, Except.toBool, hi]
    | ok i => simp [Except.isOk, Except.toBool, hi]

theorem Chmod_eq (env : Env) (fs : FS) (path : String) (mode : Nat) :
    Chmod env fs path mode =
      match resolve env path with
      | none => .error Errno.ENOENT
      | some cs =>
        match fs.inode cs with
        | .ok _ => .ok (fs.modify (setPerm mode) cs)
        | .error e => .error e := by
  unfold Chmod FS.inode
  cases resolve env path with
  | none => rfl
  | some cs =>
    simp only
    cases fs.lookup cs with
    | error e => rfl
    | ok p => rfl

theorem Chmod_of_exists (env : Env) (fs : FS) (path : String) (mode : Nat)
    (cs : List String) (i : Inode) (hr : resolve env path = some cs)
    (hi : fs.inode cs = .ok i) :
    Chmod env fs path mode = .ok (fs.modify (setPerm mode) cs) := by
  rw [Chmod_eq, hr]
  simp only [hi]

theorem setPerm_isDir (mode : Nat) (i : Inode) : (setPerm mode i).isDir = i.isDir := rfl

theorem inode_after_chmod (env : Env) (fs : FS) (path : String) (mode : Nat)
    (cs : List String) (i : Inode) (hr : resolve env path = some cs)
    (hi : fs.inode cs = .ok i) (q : List String) :
    (fs.modify (setPerm mode) cs).inode q =
      if resolve env path = some q then (fs.inode q).map (setPerm mode) else fs.inode q := by
  rw [inode_modify fs (setPerm mode) (setPerm_isDir mode) cs q, hr]
  by_cases h : q = cs
  · subst h; simp
  · have : ¬ (some cs = some q) := fun e => h (Option.some.inj e).symm
    simp [h, this]

theorem pathExists_modify (env : Env) (fs : FS) (mode : Nat) (cs : List String)
    (path : String) :
    pathExists env (fs.modify (setPerm mode) cs) path ↔ pathExists env fs path := by
  rw [pathExists_iff, pathExists_iff]
  constructor
  · rintro ⟨q, i, hq, hi⟩
    rw [inode_modify fs (setPerm mode) (setPerm_isDir mode)] at hi
    by_cases h : q = cs
    · rw [if_pos h] at hi
      cases hq2 : fs.inode q with
      | error e => rw [hq2] at hi; cases hi
      | ok j => exact ⟨q, j, hq, hq2⟩
    · rw [if_neg h] at hi
      exact ⟨q, i, hq, hi⟩
  · rintro ⟨q, i, hq, hi⟩
    refine ⟨q, if q = cs then setPerm mode i else i, hq, ?_⟩
    rw [inode_modify fs (setPerm mode) (setPerm_isDir mode)]
    by_cases h : q = cs
    · subst h
      simp [hi, Except.map]
    · simp [h, hi]

theorem restoreOne_of_valid (env : Env) (r : FilePermissions) (fs : FS)
    (hv : validRecord r) :
    restoreOne env r fs =
      if Stat env fs r.Path = .error Errno.ENOENT then
        .error (Error.restoreMissing r.Path)
      else
        match Chmod env fs r.Path (modeOf r) with
        | .error e =>
          if r.IsDirectory then .error (Error.restoreDir r.Path (Error.sys e))
          else .error (Error.restoreFile r.Path (Error.sys e))
        | .ok fs1 => .ok fs1 := by
  obtain ⟨h1, h2, h3⟩ := hv
  simp only [restoreOne, h1, h2, h3, convertPermissionsToOctal, modeOf]

theorem restoreOne_ok (env : Env) (r : FilePermissions) (fs : FS)
    (hv : validRecord r) (he : pathExists env fs r.Path) :
    restoreOne env r fs = .ok (applyRecord env fs r) ∧
      ∃ cs i, resolve env r.Path = some cs ∧ fs.inode cs = .ok i ∧
        applyRecord env fs r = fs.modify (setPerm (modeOf r)) cs := by
  obtain ⟨cs, i, hr, hi⟩ := (pathExists_iff env fs r.Path).1 he
  have hc := Chmod_of_exists env fs r.Path (modeOf r) cs i hr hi
  have hs : Stat env fs r.Path ≠ .error Errno.ENOENT := by
    simp only [Stat_eq, hr, hi]
    intro h
    cases h
  have ha : applyRecord env fs r = fs.modify (setPerm (modeOf r)) cs := by
    simp only [applyRecord, hc]
  refine ⟨?_, cs, i, hr, hi, ha⟩
  rw [restoreOne_of_valid env r fs hv, if_neg hs, hc, ha]

/-- Records that are all valid and whose paths all exist are all applied, in order. -/
theorem restore_all (env : Env) :
    ∀ (recs : List FilePermissions) (fs : FS),
      (∀ r ∈ recs, validRecord r ∧ pathExists env fs r.Path) →
      RestorePermissionsFromJSON env recs fs = (none, recs.foldl (applyRecord env) fs) ∧
        (recs.foldl (applyRecord env) fs).inode = recs.foldl (viewAfter env) fs.inode ∧
        ∀ path, pathExists env (recs.foldl (applyRecord env) fs) path ↔
          pathExists env fs path := by
  intro recs
  induction recs with
  | nil => intro fs _; simp [RestorePermissionsFromJSON]
  | cons r rest ih =>
    intro fs h
    obtain ⟨hv, he⟩ := h r (List.mem_cons_self _ _)
    obtain ⟨h1, cs, i, hr, hi, ha⟩ := restoreOne_ok env r fs hv he
    have hex : ∀ path, pathExists env (applyRecord env fs r) path ↔ pathExists env fs path := by
      intro path; rw [ha]; exact pathExists_modify env fs _ cs path
    have hrest : ∀ x ∈ rest, validRecord x ∧ pathExists env (applyRecord env fs r) x.Path := by
      intro x hx
      obtain ⟨hxv, hxe⟩ := h x (List.mem_cons_of_mem _ hx)
      exact ⟨hxv, (hex _).2 hxe⟩
    obtain ⟨i1, i2, i3⟩ := ih (applyRecord env fs r) hrest
    have hview : (applyRecord env fs r).inode = viewAfter env fs.inode r := by
      funext q
      rw [ha, inode_after_chmod env fs r.Path (modeOf r) cs i hr hi q]
      rfl
    refine ⟨?_, ?_, ?_⟩
    · simp only [RestorePermissionsFromJSON, h1, List.foldl_cons]
      exact i1
    · simp only [List.foldl_cons]
      rw [i2, hview]
    · intro path
      simp only [List.foldl_cons]
      rw [i3, hex]

theorem setPerm_congr (m M : Nat) (h : Perm m = Perm M) : setPerm m = setPerm M := by
  funext i
  simp only [setPerm, h]

theorem map_setPerm_idem (M : Nat) (x : Except Errno Inode) :
    (x.map (setPerm M)).map (setPerm M) = x.map (setPerm M) := by
  cases x <;> rfl

/-- The lookup at `q` after a run of records that all carry the permission bits of
`M` whenever they resolve to `q`. -/
theorem foldl_view_const (env : Env) (q : List String) (M : Nat) :
    ∀ (l : List FilePermissions) (v : List String → Except Errno Inode),
      (∀ x ∈ l, resolve env x.Path = some q → Perm (modeOf x) = Perm M) →
      l.foldl (viewAfter env) v q =
        if ∃ x ∈ l, resolve env x.Path = some q then (v q).map (setPerm M) else v q := by
  intro l
  induction l with
  | nil => intro v _; simp
  | cons x l ih =>
    intro v h
    have hl : ∀ y ∈ l, resolve env y.Path = some q → Perm (modeOf y) = Perm M :=
      fun y hy => h y (List.mem_cons_of_mem _ hy)
    rw [List.foldl_cons, ih (viewAfter env v x) hl]
    by_cases hx : resolve env x.Path = some q
    · have hv : viewAfter env v x q = (v q).map (setPerm M) := by
        simp only [viewAfter, if_pos hx]
        rw [setPerm_congr _ _ (h x (List.mem_cons_self _ _) hx)]
      have hex : ∃ y ∈ x :: l, resolve env y.Path = some q := ⟨x, List.mem_cons_self _ _, hx⟩
      rw [if_pos hex, hv, map_setPerm_idem]
      split <;> rfl
    · have hv : viewAfter env v x q = v q := by
        simp only [viewAfter, if_neg hx]
      rw [hv]
      by_cases hex : ∃ y ∈ l, resolve env y.Path = some q
      · have hex2 : ∃ y ∈ x :: l, resolve env y.Path = some q := by
          obtain ⟨y, hy, hyq⟩ := hex
          exact ⟨y, List.mem_cons_of_mem _ hy, hyq⟩
        rw [if_pos hex, if_pos hex2]
      · have hex2 : ¬ ∃ y ∈ x :: l, resolve env y.Path = some q := by
          rintro ⟨y, hy, hyq⟩
          rcases List.mem_cons.1 hy with h1 | h1
          · subst h1; exact hx hyq
          · exact hex ⟨y, h1, hyq⟩
        rw [if_neg hex, if_neg hex2]

theorem viewAfter_comm (env : Env) (v : List String → Except Errno Inode)
    (x y : FilePermissions)
    (h : ∀ q, resolve env x.Path = some q → resolve env y.Path = some q → x = y) :
    viewAfter env (viewAfter env v x) y = viewAfter env (viewAfter env v y) x := by
  funext q
  simp only [viewAfter]
  by_cases hx : resolve env x.Path = some q
  · by_cases hy : resolve env y.Path = some q
    · have : x = y := h q hx hy
      subst this
      rfl
    · simp [hx, hy]
  · by_cases hy : resolve env y.Path = some q
    · simp [hx, hy]
    · simp [hx, hy]

/-! ## Paths -/

theorem splitSlash_ne_nil (l : List Char) : splitSlash l ≠ [] := by
  cases l with
  | nil => simp [splitSlash]
  | cons c cs =>
    unfold splitSlash
    by_cases h : c = '/'
    · simp [h]
    · rw [if_neg h]
      split <;> simp

theorem splitSlash_cons_of_ne (c : Char) (cs : List Char) (h : c ≠ '/') :
    ∃ w ws, splitSlash cs = w :: ws ∧ splitSlash (c :: cs) = (c :: w) :: ws := by
  cases hs : splitSlash cs with
  | nil => exact absurd hs (splitSlash_ne_nil cs)
  | cons w ws =>
    refine ⟨w, ws, rfl, ?_⟩
    rw [splitSlash, if_neg h, hs]

theorem splitSlash_slash_cons (cs : List Char) :
    splitSlash ('/' :: cs) = [] :: splitSlash cs := by
  rw [splitSlash, if_pos rfl]

theorem splitSlash_append_slash (a b : List Char) :
    splitSlash (a ++ '/' :: b) = splitSlash a ++ splitSlash b := by
  induction a with
  | nil => simp [splitSlash]
  | cons c a ih =>
    by_cases h : c = '/'
    · subst h
      rw [List.cons_append, splitSlash_slash_cons, splitSlash_slash_cons, ih]
      rfl
    · obtain ⟨w, ws, hs, hc⟩ := splitSlash_cons_of_ne c a h
      obtain ⟨w2, ws2, hs2, hc2⟩ := splitSlash_cons_of_ne c (a ++ '/' :: b) h
      rw [List.cons_append, hc2, hc]
      rw [ih, hs] at hs2
      simp only [List.cons_append] at hs2
      obtain ⟨h1, h2⟩ := List.cons.inj hs2
      rw [← h1, ← h2]
      rfl

theorem splitSlash_of_slashFree (w : List Char) (h : '/' ∉ w) : splitSlash w = [w] := by
  induction w with
  | nil => rfl
  | cons c w ih =>
    have hc : c ≠ '/' := fun e => h (by simp [e])
    have hw : '/' ∉ w := fun e => h (List.mem_cons_of_mem _ e)
    rw [splitSlash, if_neg hc, ih hw]

theorem splitSlash_slashFree (l : List Char) : ∀ w ∈ splitSlash l, '/' ∉ w := by
  induction l with
  | nil => intro w hw; simp [splitSlash] at hw; subst hw; simp
  | cons c l ih =>
    intro w hw
    by_cases h : c = '/'
    · subst h
      simp only [splitSlash, if_true, List.mem_cons] at hw
      rcases hw with h1 | h1
      · subst h1; simp
      · exact ih w h1
    · obtain ⟨v, vs, hs, hc⟩ := splitSlash_cons_of_ne c l h
      rw [hc] at hw
      rw [hs] at ih
      rcases List.mem_cons.1 hw with h1 | h1
      · subst h1
        intro hmem
        rcases List.mem_cons.1 hmem with h2 | h2
        · exact h h2.symm
        · exact ih v (List.mem_cons_self _ _) h2
      · exact ih w (List.mem_cons_of_mem _ h1)

theorem components_append_slash (a b : String) :
    components (a ++ "/" ++ b) = components a ++ components b := by
  unfold components
  rw [String.data_append, String.data_append]
  have : ("/" : String).data = ['/'] := rfl
  rw [this, List.append_assoc, List.singleton_append, splitSlash_append_slash, List.map_append]

theorem components_of_slashFree (c : String) (h : '/' ∉ c.data) : components c = [c] := by
  unfold components
  rw [splitSlash_of_slashFree _ h]
  rfl

theorem components_slashFree (p : String) : ∀ c ∈ components p, '/' ∉ c.data := by
  intro c hc
  unfold components at hc
  obtain ⟨w, hw, rfl⟩ := List.mem_map.1 hc
  exact splitSlash_slashFree _ w hw

theorem splitSlash_joinSlash :
    ∀ N : List String, N ≠ [] → (∀ c ∈ N, '/' ∉ c.data) →
      splitSlash (joinSlash N) = N.map String.data := by
  intro N
  induction N with
  | nil => intro h; exact absurd rfl h
  | cons c N ih =>
    intro _ hall
    cases N with
    | nil =>
      simp only [joinSlash, List.map]
      exact splitSlash_of_slashFree _ (hall c (List.mem_cons_self _ _))
    | cons d N =>
      simp only [joinSlash]
      rw [splitSlash_append_slash, ih (by simp) (fun x hx => hall x (List.mem_cons_of_mem _ hx)),
        splitSlash_of_slashFree _ (hall c (List.mem_cons_self _ _))]
      rfl

theorem components_render_true (N : List String) (h : ∀ c ∈ N, '/' ∉ c.data) :
    components (render true N) = if N = [] then ["", ""] else "" :: N := by
  unfold components render
  simp only [if_true]
  by_cases hN : N = []
  · subst hN
    rfl
  · rw [if_neg hN]
    show List.map String.mk (splitSlash ('/' :: joinSlash N)) = _
    rw [splitSlash, if_pos rfl, splitSlash_joinSlash N hN h]
    simp only [List.map_cons, List.map_map]
    congr 1
    exact List.map_id _

theorem cleanStep_plain (r : Bool) (st : List String) (c : String) (h : plain c) :
    cleanStep r st c = c :: st := by
  obtain ⟨h1, h2, h3⟩ := h
  simp [cleanStep, h1, h2, h3]

theorem cleanStep_empty (r : Bool) (st : List String) : cleanStep r st "" = st := by
  simp [cleanStep]

theorem cleanStep_dot (r : Bool) (st : List String) : cleanStep r st "." = st := by
  simp [cleanStep]

theorem foldl_cleanStep_plain (r : Bool) :
    ∀ (N st : List String), (∀ c ∈ N, plain c) →
      N.foldl (cleanStep r) st = N.reverse ++ st := by
  intro N
  induction N with
  | nil => intro st _; rfl
  | cons c N ih =>
    intro st h
    rw [List.foldl_cons, cleanStep_plain r st c (h c (List.mem_cons_self _ _)),
      ih _ (fun x hx => h x (List.mem_cons_of_mem _ hx))]
    simp

theorem cleanStep_mem (r : Bool) (st : List String) (c t : String)
    (h : t ∈ cleanStep r st c) : t ∈ st ∨ t = c := by
  unfold cleanStep at h
  split at h
  · exact Or.inl h
  · split at h
    · split at h
      · split at h
        · simp at h
        · simp at h; exact Or.inr h
      · split at h
        · rcases List.mem_cons.1 h with h1 | h1
          · exact Or.inr h1
          · exact Or.inl h1
        · exact Or.inl (List.mem_cons_of_mem _ h)
    · rcases List.mem_cons.1 h with h1 | h1
      · exact Or.inr h1
      · exact Or.inl h1

theorem cleanStep_true_plain (st : List String) (c : String) (h : ∀ t ∈ st, plain t) :
    ∀ t ∈ cleanStep true st c, plain t := by
  intro t ht
  unfold cleanStep at ht
  split at ht
  · exact h t ht
  · rename_i h1
    split at ht
    · split at ht
      · simp at ht
      · rename_i u us
        have hu : u ≠ ".." := (h u (List.mem_cons_self _ _)).2.2
        rw [if_neg hu] at ht
        exact h t (List.mem_cons_of_mem _ ht)
    · rename_i h2
      rcases List.mem_cons.1 ht with h3 | h3
      · subst h3
        simp only [not_or] at h1
        exact ⟨h1.1, h1.2, h2⟩
      · exact h t h3

theorem foldl_true_plain :
    ∀ (cs st : List String), (∀ t ∈ st, plain t) →
      ∀ t ∈ cs.foldl (cleanStep true) st, plain t := by
  intro cs
  induction cs with
  | nil => intro st h; exact h
  | cons c cs ih =>
    intro st h
    rw [List.foldl_cons]
    exact ih _ (cleanStep_true_plain st c h)

theorem foldl_cleanStep_mem (r : Bool) :
    ∀ (cs st : List String) (t : String), t ∈ cs.foldl (cleanStep r) st → t ∈ st ∨ t ∈ cs := by
  intro cs
  induction cs with
  | nil => intro st t h; exact Or.inl h
  | cons c cs ih =>
    intro st t h
    rw [List.foldl_cons] at h
    rcases ih _ t h with h1 | h1
    · rcases cleanStep_mem r st c t h1 with h2 | h2
      · exact Or.inl h2
      · exact Or.inr (by simp [h2])
    · exact Or.inr (List.mem_cons_of_mem _ h1)

theorem normalize_true_plain (cs : List String) : ∀ t ∈ normalize true cs, plain t := by
  intro t ht
  unfold normalize at ht
  exact foldl_true_plain cs [] (by simp) t (List.mem_reverse.1 ht)

theorem normalize_mem (r : Bool) (cs : List String) : ∀ t ∈ normalize r cs, t ∈ cs := by
  intro t ht
  unfold normalize at ht
  rcases foldl_cleanStep_mem r cs [] t (List.mem_reverse.1 ht) with h | h
  · simp at h
  · exact h

theorem normalize_of_plain (r : Bool) (N : List String) (h : ∀ c ∈ N, plain c) :
    normalize r N = N := by
  unfold normalize
  rw [foldl_cleanStep_plain r N [] h]
  simp

/-- The elements a cleaned absolute path is split into lead back to the same
stack. -/
theorem foldl_components_render_true (r : Bool) (N st : List String)
    (h : ∀ c ∈ N, '/' ∉ c.data) :
    (components (render true N)).foldl (cleanStep r) st = N.foldl (cleanStep r) st := by
  rw [components_render_true N h]
  by_cases hN : N = []
  · subst hN
    simp [cleanStep_empty]
  · rw [if_neg hN, List.foldl_cons, cleanStep_empty]

theorem ne_empty_of_IsAbs (p : String) (h : IsAbs p = true) : p ≠ "" := by
  intro e
  subst e
  exact absurd h (by decide)

theorem IsAbs_render_true (N : List String) : IsAbs (render true N) = true := by
  simp [IsAbs, render]

theorem IsAbs_append (p q : String) (h : IsAbs p = true) : IsAbs (p ++ q) = true := by
  unfold IsAbs at *
  rw [String.data_append]
  cases hp : p.data with
  | nil => rw [hp] at h; simp at h
  | cons c cs => rw [hp] at h; simpa using h

theorem Clean_of_IsAbs (p : String) (h : IsAbs p = true) :
    Clean p = render true (normalize true (components p)) := by
  unfold Clean
  rw [if_neg (ne_empty_of_IsAbs p h), h]

theorem normalize_true_validName (p : String) :
    ∀ c ∈ normalize true (components p), validName c := by
  intro c hc
  exact ⟨normalize_true_plain _ c hc, components_slashFree p c (normalize_mem _ _ c hc)⟩

theorem normalize_components_render (N : List String) (h : ∀ c ∈ N, validName c) :
    normalize true (components (render true N)) = N := by
  unfold normalize
  rw [foldl_components_render_true true N [] (fun c hc => (h c hc).2),
    foldl_cleanStep_plain true N [] (fun c hc => (h c hc).1)]
  simp

theorem Clean_render_true (N : List String) (h : ∀ c ∈ N, validName c) :
    Clean (render true N) = render true N := by
  rw [Clean_of_IsAbs _ (IsAbs_render_true N), normalize_components_render N h]

theorem Abs_of_IsAbs (env : Env) (p : String) (h : IsAbs p = true) :
    Abs env p = .ok (Clean p) := by
  unfold Abs
  rw [if_pos h]

/-- An absolute path resolves to the elements `Clean` keeps of it. -/
theorem resolve_of_IsAbs (env : Env) (p : String) (h : IsAbs p = true) :
    resolve env p = some (normalize true (components p)) := by
  unfold resolve
  rw [Abs_of_IsAbs env p h]
  simp only
  rw [Clean_of_IsAbs p h, normalize_components_render _ (normalize_true_validName p)]

theorem resolve_render_true (env : Env) (N : List String) (h : ∀ c ∈ N, validName c) :
    resolve env (render true N) = some N := by
  rw [resolve_of_IsAbs env _ (IsAbs_render_true N), normalize_components_render N h]

theorem Join_of_IsAbs (p name : String) (h : IsAbs p = true) (hn : validName name) :
    Join p name = render true (normalize true (components p) ++ [name]) := by
  unfold Join
  rw [if_pos (ne_empty_of_IsAbs p h)]
  have habs : IsAbs (p ++ "/" ++ name) = true := by
    rw [String.append_assoc]
    exact IsAbs_append p _ h
  rw [Clean_of_IsAbs _ habs, components_append_slash, components_of_slashFree name hn.2]
  congr 1
  unfold normalize
  rw [List.foldl_append, List.foldl_cons, List.foldl_nil, cleanStep_plain _ _ _ hn.1]
  simp

/-- The path of an entry below an absolute directory path resolves to the elements
of the directory followed by the name of the entry. -/
theorem resolve_Join (env : Env) (p name : String) (S : List String) (h : IsAbs p = true)
    (hS : resolve env p = some S) (hn : validName name) :
    IsAbs (Join p name) = true ∧ resolve env (Join p name) = some (S ++ [name]) := by
  rw [resolve_of_IsAbs env p h] at hS
  have hS2 := Option.some.inj hS
  rw [Join_of_IsAbs p name h hn, hS2]
  refine ⟨IsAbs_render_true _, resolve_render_true env _ ?_⟩
  intro c hc
  rcases List.mem_append.1 hc with h1 | h1
  · rw [← hS2] at h1
    exact normalize_true_validName p c h1
  · rw [List.mem_singleton] at h1
    subst h1
    exact hn

/-! ## The tree walker -/

theorem child_mem_names (c : String) :
    ∀ (es : Entries) (x : Inode × Entries), es.child c = some x → c ∈ es.names := by
  intro es
  induction es with
  | nil => intro x h; simp [Entries.child] at h
  | cons m i ch rest _ ihr =>
    intro x h
    by_cases hm : m = c
    · simp [Entries.names, hm]
    · simp only [Entries.child, if_neg hm] at h
      exact List.mem_cons_of_mem _ (ihr x h)

theorem child_WF (c : String) :
    ∀ (es : Entries) (j : Inode) (g : Entries), es.WF → es.child c = some (j, g) → g.WF := by
  intro es
  induction es with
  | nil => intro j g _ h; simp [Entries.child] at h
  | cons m i ch rest _ ihr =>
    intro j g hwf h
    obtain ⟨_, _, hch, hrest⟩ := hwf
    by_cases hm : m = c
    · simp only [Entries.child, if_pos hm, Option.some.injEq, Prod.mk.injEq] at h
      rw [← h.2]
      exact hch
    · simp only [Entries.child, if_neg hm] at h
      exact ihr j g hrest h

theorem lookupFrom_cons (i : Inode) (ch : Entries) (c : String) (cs : List String)
    (j : Inode) (g : Entries) (h : lookupFrom i ch (c :: cs) = .ok (j, g)) :
    i.isDir = true ∧ ∃ k kg, ch.child c = some (k, kg) ∧ lookupFrom k kg cs = .ok (j, g) := by
  unfold lookupFrom at h
  by_cases hd : i.isDir = true
  · refine ⟨hd, ?_⟩
    simp only [hd, Bool.not_true, Bool.false_eq_true, if_false] at h
    cases hc : ch.child c with
    | none => rw [hc] at h; cases h
    | some x =>
      obtain ⟨k, kg⟩ := x
      rw [hc] at h
      exact ⟨k, kg, rfl, h⟩
  · simp only [hd, Bool.not_false, if_true] at h
    cases h

theorem lookupFrom_of_child (i : Inode) (ch : Entries) (c : String) (cs : List String)
    (k : Inode) (kg : Entries) (hd : i.isDir = true) (hc : ch.child c = some (k, kg)) :
    lookupFrom i ch (c :: cs) = lookupFrom k kg cs := by
  rw [lookupFrom]
  simp only [hd, Bool.not_true, Bool.false_eq_true, if_false, hc]

theorem lookupFrom_WF :
    ∀ (cs : List String) (i : Inode) (ch : Entries) (j : Inode) (g : Entries),
      ch.WF → lookupFrom i ch cs = .ok (j, g) → g.WF := by
  intro cs
  induction cs with
  | nil =>
    intro i ch j g hwf h
    simp only [lookupFrom, Except.ok.injEq, Prod.mk.injEq] at h
    rw [← h.2]
    exact hwf
  | cons c cs ih =>
    intro i ch j g hwf h
    obtain ⟨_, k, kg, hc, hl⟩ := lookupFrom_cons i ch c cs j g h
    exact ih k kg j g (child_WF c ch k kg hwf hc) hl

theorem lookupFrom_append :
    ∀ (S : List String) (i : Inode) (ch : Entries) (j : Inode) (g : Entries)
      (cs : List String),
      lookupFrom i ch S = .ok (j, g) → lookupFrom i ch (S ++ cs) = lookupFrom j g cs := by
  intro S
  induction S with
  | nil =>
    intro i ch j g cs h
    simp only [lookupFrom, Except.ok.injEq, Prod.mk.injEq] at h
    rw [List.nil_append, h.1, h.2]
  | cons c S ih =>
    intro i ch j g cs h
    obtain ⟨hd, k, kg, hc, hl⟩ := lookupFrom_cons i ch c S j g h
    rw [List.cons_append, lookupFrom_of_child i ch c _ k kg hd hc]
    exact ih k kg j g cs hl

/-- Every record of the descent below a directory is the visit of the entry its path
resolves to. -/
theorem walkEntries_sound (env : Env) :
    ∀ (es : Entries) (path : String) (S : List String) (d : Inode),
      IsAbs path = true → resolve env path = some S → es.WF → d.isDir = true →
      ∀ r ∈ walkEntries path es, ∃ cs j g, cs ≠ [] ∧ lookupFrom d es cs = .ok (j, g) ∧
        resolve env r.Path = some (S ++ cs) ∧ r = visit r.Path j := by
  intro es
  induction es with
  | nil => intro path S d _ _ _ _ r hr; simp [walkEntries] at hr
  | cons name info ch rest ihc ihr =>
    intro path S d habs hS hwf hd r hr
    obtain ⟨hname, hnot, hchwf, hrestwf⟩ := hwf
    obtain ⟨hjabs, hjres⟩ := resolve_Join env path name S habs hS hname
    have hchild : (Entries.cons name info ch rest).child name = some (info, ch) := by
      simp [Entries.child]
    simp only [walkEntries, List.mem_cons, List.mem_append] at hr
    rcases hr with h | h | h
    · refine ⟨[name], info, ch, by simp, ?_, ?_, ?_⟩
      · rw [lookupFrom_of_child d _ name [] info ch hd hchild]
        rfl
      · rw [h]; exact hjres
      · rw [h]; rfl
    · by_cases hid : info.isDir = true
      · rw [if_pos hid] at h
        obtain ⟨cs, j, g, hne, hl, hres, hv⟩ :=
          ihc (Join path name) (S ++ [name]) info hjabs hjres hchwf hid r h
        refine ⟨name :: cs, j, g, by simp, ?_, ?_, hv⟩
        · rw [lookupFrom_of_child d _ name cs info ch hd hchild]
          exact hl
        · rw [hres]; simp
      · rw [if_neg hid] at h
        simp at h
    · obtain ⟨cs, j, g, hne, hl, hres, hv⟩ := ihr path S d habs hS hrestwf hd r h
      refine ⟨cs, j, g, hne, ?_, hres, hv⟩
      cases cs with
      | nil => exact absurd rfl hne
      | cons c cs =>
        obtain ⟨_, k, kg, hc, hl2⟩ := lookupFrom_cons d rest c cs j g hl
        have hcn : name ≠ c := fun e => hnot (e ▸ child_mem_names c rest _ hc)
        have hc2 : (Entries.cons name info ch rest).child c = some (k, kg) := by
          simp only [Entries.child, if_neg hcn]
          exact hc
        rw [lookupFrom_of_child d _ c cs k kg hd hc2]
        exact hl2

/-- Every entry below a directory is visited by the descent. -/
theorem walkEntries_complete (env : Env) :
    ∀ (es : Entries) (path : String) (S : List String) (d : Inode),
      IsAbs path = true → resolve env path = some S → es.WF →
      ∀ (cs : List String) (j : Inode) (g : Entries), cs ≠ [] →
        lookupFrom d es cs = .ok (j, g) →
        ∃ r ∈ walkEntries path es, resolve env r.Path = some (S ++ cs) := by
  intro es
  induction es with
  | nil =>
    intro path S d _ _ _ cs j g hne hl
    cases cs with
    | nil => exact absurd rfl hne
    | cons c cs =>
      obtain ⟨_, k, kg, hc, _⟩ := lookupFrom_cons d .nil c cs j g hl
      simp [Entries.child] at hc
  | cons name info ch rest ihc ihr =>
    intro path S d habs hS hwf cs j g hne hl
    obtain ⟨hname, hnot, hchwf, hrestwf⟩ := hwf
    obtain ⟨hjabs, hjres⟩ := resolve_Join env path name S habs hS hname
    cases cs with
    | nil => exact absurd rfl hne
    | cons c cs =>
      obtain ⟨hd, k, kg, hc, hl2⟩ := lookupFrom_cons d _ c cs j g hl
      by_cases hcn : name = c
      · subst hcn
        simp only [Entries.child, if_true, Option.some.injEq, Prod.mk.injEq] at hc
        obtain ⟨hk, hkg⟩ := hc
        subst hk hkg
        cases cs with
        | nil =>
          refine ⟨visit (Join path name) info, ?_, ?_⟩
          · simp [walkEntries]
          · exact hjres
        | cons c2 cs =>
          obtain ⟨hid, _⟩ := lookupFrom_cons info ch c2 cs j g hl2
          obtain ⟨r, hr, hres⟩ :=
            ihc (Join path name) (S ++ [name]) info hjabs hjres hchwf (c2 :: cs) j g
              (by simp) hl2
          refine ⟨r, ?_, ?_⟩
          · simp only [walkEntries, List.mem_cons, List.mem_append, if_pos hid]
            exact Or.inr (Or.inl hr)
          · rw [hres]; simp
      · simp only [Entries.child, if_neg hcn] at hc
        have hl3 : lookupFrom d rest (c :: cs) = .ok (j, g) := by
          rw [lookupFrom_of_child d rest c cs k kg hd hc]
          exact hl2
        obtain ⟨r, hr, hres⟩ := ihr path S d habs hS hrestwf (c :: cs) j g (by simp) hl3
        refine ⟨r, ?_, hres⟩
        simp only [walkEntries, List.mem_cons, List.mem_append]
        exact Or.inr (Or.inr hr)

theorem Perm_Perm (m : Nat) : Perm (Perm m) = Perm m := by
  unfold Perm
  rw [Nat.and_assoc]
  rfl

theorem modeOf_visit (path : String) (info : Inode) :
    modeOf (visit path info) = Perm info.perm := by
  obtain ⟨h1, h2, h3⟩ := triads_of_mode info.perm
  simp only [modeOf, visit, sumPerm_rwx _ h1, sumPerm_rwx _ h2, sumPerm_rwx _ h3, split_mode]

theorem validate_rwx (n : Nat) : ValidatePermissionString (rwx n) = none := by
  rw [rwx_mod8]
  have h : n % 8 < 8 := Nat.mod_lt _ (by decide)
  generalize n % 8 = m at h
  interval_cases m <;> decide

theorem validRecord_visit (path : String) (info : Inode) : validRecord (visit path info) :=
  ⟨validate_rwx _, validate_rwx _, validate_rwx _⟩

theorem inode_of_lookup (fs : FS) (q : List String) (j : Inode) (g : Entries)
    (h : fs.lookup q = .ok (j, g)) : fs.inode q = .ok j := by
  unfold FS.inode
  rw [h]

/-- What `GetDirectoryPermissions` returns: the visit of the root and the descent
below it; every record is the visit of the entry its path resolves to, and every entry
at or below the root has a record. -/
theorem walk_records (env : Env) (fs : FS) (dir : String) (recs : List FilePermissions)
    (habs : IsAbs dir = true) (hwf : fs.top.WF)
    (hwalk : GetDirectoryPermissions env fs dir = .ok recs) :
    ∃ S, resolve env dir = some S ∧
      (∀ r ∈ recs, ∃ cs j, fs.inode (S ++ cs) = .ok j ∧
        resolve env r.Path = some (S ++ cs) ∧ r = visit r.Path j) ∧
      (∀ cs j, fs.inode (S ++ cs) = .ok j →
        ∃ r ∈ recs, resolve env r.Path = some (S ++ cs)) := by
  unfold GetDirectoryPermissions at hwalk
  cases hS : resolve env dir with
  | none => rw [hS] at hwalk; cases hwalk
  | some S =>
    rw [hS] at hwalk
    simp only at hwalk
    cases hl : fs.lookup S with
    | error e => rw [hl] at hwalk; cases hwalk
    | ok x =>
      obtain ⟨info, ch⟩ := x
      rw [hl] at hwalk
      simp only [Except.ok.injEq] at hwalk
      have hchwf : ch.WF := lookupFrom_WF S fs.root fs.top info ch hwf hl
      have happ : ∀ cs, fs.lookup (S ++ cs) = lookupFrom info ch cs :=
        fun cs => lookupFrom_append S fs.root fs.top info ch cs hl
      refine ⟨S, rfl, ?_, ?_⟩
      · intro r hr
        rw [← hwalk] at hr
        rcases List.mem_cons.1 hr with h | h
        · refine ⟨[], info, ?_, ?_, ?_⟩
          · rw [List.append_nil]; exact inode_of_lookup fs S info ch hl
          · rw [h, List.append_nil]; exact hS
          · rw [h]; rfl
        · by_cases hid : info.isDir = true
          · rw [if_pos hid] at h
            obtain ⟨cs, j, g, _, hlk, hres, hv⟩ :=
              walkEntries_sound env ch dir S info habs hS hchwf hid r h
            refine ⟨cs, j, ?_, hres, hv⟩
            exact inode_of_lookup fs _ j g ((happ cs).trans hlk)
          · rw [if_neg hid] at h
            simp at h
      · intro cs j hj
        cases cs with
        | nil =>
          refine ⟨visit dir info, ?_, ?_⟩
          · rw [← hwalk]; exact List.mem_cons_self _ _
          · rw [List.append_nil]; exact hS
        | cons c cs =>
          unfold FS.inode at hj
          rw [happ] at hj
          cases hlk : lookupFrom info ch (c :: cs) with
          | error e => rw [hlk] at hj; cases hj
          | ok y =>
            obtain ⟨j2, g⟩ := y
            obtain ⟨hid, _⟩ := lookupFrom_cons info ch c cs j2 g hlk
            obtain ⟨r, hr, hres⟩ :=
              walkEntries_complete env ch dir S info habs hS hchwf (c :: cs) j2 g
                (by simp) hlk
            refine ⟨r, ?_, hres⟩
            rw [← hwalk, if_pos hid]
            exact List.mem_cons_of_mem _ hr

/-- C1 (backup-then-restore round trip). Let the file system be well formed, let
`GetDirectoryPermissions` on the absolute path `dir` return the records `recs`, and
let `fs2` be a file system in which every path of the first one exists, with whatever
permission bits. Then `RestorePermissionsFromJSON` applied to `recs` on `fs2` succeeds,
and every entry at or below `dir` (the root, files, directories, empty or not) ends
with exactly the 9 permission bits it had at the walk; its type is not touched. -/
theorem backup_restore_roundtrip (env : Env) (fs fs2 : FS) (dir : String)
    (recs : List FilePermissions)
    (habs : IsAbs dir = true) (hwf : fs.top.WF)
    (hwalk : GetDirectoryPermissions env fs dir = .ok recs)
    (hsame : ∀ q, (fs.inode q).isOk = true → (fs2.inode q).isOk = true) :
    ∃ fs3 S, resolve env dir = some S ∧
      RestorePermissionsFromJSON env recs fs2 = (none, fs3) ∧
      (∀ cs i, fs.inode (S ++ cs) = .ok i →
        ∃ j, fs2.inode (S ++ cs) = .ok j ∧
          fs3.inode (S ++ cs) = .ok { j with perm := Perm i.perm }) ∧
      (∀ r ∈ recs, ∃ i k, Stat env fs r.Path = .ok i ∧ Stat env fs3 r.Path = .ok k ∧
        k.perm = Perm i.perm) := by
  obtain ⟨S, hS, hsound, hcomplete⟩ := walk_records env fs dir recs habs hwf hwalk
  have hex : ∀ q i, fs.inode q = .ok i → ∃ j, fs2.inode q = .ok j := by
    intro q i hi
    have h := hsame q (by rw [hi]; rfl)
    cases h2 : fs2.inode q with
    | error e => rw [h2] at h; cases h
    | ok j => exact ⟨j, rfl⟩
  have hok : ∀ r ∈ recs, validRecord r ∧ pathExists env fs2 r.Path := by
    intro r hr
    obtain ⟨cs, j, hj, hres, hv⟩ := hsound r hr
    obtain ⟨j2, hj2⟩ := hex _ j hj
    refine ⟨?_, (pathExists_iff env fs2 r.Path).2 ⟨_, j2, hres, hj2⟩⟩
    rw [hv]
    exact validRecord_visit _ _
  obtain ⟨a1, a2, _⟩ := restore_all env recs fs2 hok
  have hnode : ∀ cs i, fs.inode (S ++ cs) = .ok i →
      ∃ j, fs2.inode (S ++ cs) = .ok j ∧
        (recs.foldl (applyRecord env) fs2).inode (S ++ cs)
          = .ok { j with perm := Perm i.perm } := by
    intro cs i hi
    obtain ⟨j, hj⟩ := hex _ i hi
    refine ⟨j, hj, ?_⟩
    have hc : ∀ x ∈ recs, resolve env x.Path = some (S ++ cs) →
        Perm (modeOf x) = Perm i.perm := by
      intro x hx hxq
      obtain ⟨cs2, k, hk, hres, hv⟩ := hsound x hx
      have hq : S ++ cs2 = S ++ cs := Option.some.inj (hres.symm.trans hxq)
      rw [hq, hi] at hk
      have hki : i = k := Except.ok.inj hk
      rw [hv, modeOf_visit, Perm_Perm, hki]
    rw [a2, foldl_view_const env (S ++ cs) i.perm recs fs2.inode hc,
      if_pos (hcomplete cs i hi), hj]
    rfl
  refine ⟨_, S, hS, a1, hnode, ?_⟩
  intro r hr
  obtain ⟨cs, i, hi, hres, _⟩ := hsound r hr
  obtain ⟨j, _, h3⟩ := hnode cs i hi
  refine ⟨i, { j with perm := Perm i.perm }, ?_, ?_, rfl⟩
  · rw [Stat_eq, hres]; exact hi
  · rw [Stat_eq, hres]; exact h3

theorem isOk_modify (fs : FS) (mode : Nat) (cs q : List String)
    (h : (fs.inode q).isOk = true) : ((fs.modify (setPerm mode) cs).inode q).isOk = true := by
  rw [inode_modify fs (setPerm mode) (setPerm_isDir mode)]
  cases hq : fs.inode q with
  | error e => rw [hq] at h; cases h
  | ok i => split <;> rfl

theorem sampleFSCleared_eq :
    sampleFSCleared =
      ((sampleFS.modify (setPerm 0) ["tmp", "d"]).modify (setPerm 0)
        ["tmp", "d", "a.txt"]).modify (setPerm 0) ["tmp", "d", "sub"] := by
  decide

/-- Witness of C1: the scenario of the specification. The modes of `/tmp/d`, `a.txt`
and `sub` are all changed to `000` after the walk; the restore brings them back. -/
theorem backup_restore_roundtrip_witness :
    ∃ fs3 S, resolve sampleEnv "/tmp/d" = some S ∧
      RestorePermissionsFromJSON sampleEnv
        [visit "/tmp/d" (dirNode 0o755), visit "/tmp/d/a.txt" (fileNode 0o644),
          visit "/tmp/d/sub" (dirNode 0o755)] sampleFSCleared = (none, fs3) ∧
      (∀ cs i, sampleFS.inode (S ++ cs) = .ok i →
        ∃ j, sampleFSCleared.inode (S ++ cs) = .ok j ∧
          fs3.inode (S ++ cs) = .ok { j with perm := Perm i.perm }) ∧
      (∀ r ∈ [visit "/tmp/d" (dirNode 0o755), visit "/tmp/d/a.txt" (fileNode 0o644),
          visit "/tmp/d/sub" (dirNode 0o755)],
        ∃ i k, Stat sampleEnv sampleFS r.Path = .ok i ∧ Stat sampleEnv fs3 r.Path = .ok k ∧
          k.perm = Perm i.perm) :=
  backup_restore_roundtrip sampleEnv sampleFS sampleFSCleared "/tmp/d" _ (by decide)
    (by decide) (by decide)
    (by
      rw [sampleFSCleared_eq]
      exact fun q h => isOk_modify _ _ _ _ (isOk_modify _ _ _ _ (isOk_modify _ _ _ _ h)))

/-! ## Relative paths -/

theorem Clean_eq (p : String) :
    Clean p = render (IsAbs p) (normalize (IsAbs p) (components p)) := by
  unfold Clean
  by_cases h : p = ""
  · subst h
    decide
  · rw [if_neg h]

theorem cleanStep_noDots (r : Bool) (st : List String) (c : String)
    (h : ∀ t ∈ st, t ≠ "" ∧ t ≠ ".") : ∀ t ∈ cleanStep r st c, t ≠ "" ∧ t ≠ "." := by
  intro t ht
  unfold cleanStep at ht
  split at ht
  · exact h t ht
  · rename_i h1
    simp only [not_or] at h1
    split at ht
    · rename_i h2
      split at ht
      · split at ht
        · simp at ht
        · simp only [List.mem_singleton] at ht
          rw [ht]; exact h1
      · split at ht
        · rcases List.mem_cons.1 ht with h3 | h3
          · rw [h3]; exact h1
          · exact h t h3
        · exact h t (List.mem_cons_of_mem _ ht)
    · rcases List.mem_cons.1 ht with h3 | h3
      · rw [h3]; exact h1
      · exact h t h3

theorem foldl_noDots (r : Bool) :
    ∀ (cs st : List String), (∀ t ∈ st, t ≠ "" ∧ t ≠ ".") →
      ∀ t ∈ cs.foldl (cleanStep r) st, t ≠ "" ∧ t ≠ "." := by
  intro cs
  induction cs with
  | nil => intro st h; exact h
  | cons c cs ih =>
    intro st h
    rw [List.foldl_cons]
    exact ih _ (cleanStep_noDots r st c h)

theorem cleanStep_dotdot_cons (r : Bool) (t : String) (ts : List String) (h : t ≠ "..") :
    cleanStep r (t :: ts) ".." = ts := by
  simp [cleanStep, h]

/-- Cleaning a relative tail first does not change where a path leads. -/
theorem foldl_normalize_false (r : Bool) (cs : List String) :
    ∀ st : List String,
      (normalize false cs).foldl (cleanStep r) st = cs.foldl (cleanStep r) st := by
  induction cs using List.reverseRecOn with
  | nil => intro st; rfl
  | append_singleton cs c ih =>
    intro st
    have hF := foldl_noDots false cs [] (by simp)
    have hN : normalize false cs = (cs.foldl (cleanStep false) []).reverse := rfl
    have hN2 : normalize false (cs ++ [c])
        = (cleanStep false (cs.foldl (cleanStep false) []) c).reverse := by
      unfold normalize
      rw [List.foldl_append]
      rfl
    rw [hN2, List.foldl_append, List.foldl_cons, List.foldl_nil, ← ih st, hN]
    generalize cs.foldl (cleanStep false) [] = F at hF
    by_cases h1 : c = "" ∨ c = "."
    · have e1 : ∀ X, cleanStep r X c = X := fun X => by simp [cleanStep, h1]
      have e2 : cleanStep false F c = F := by simp [cleanStep, h1]
      rw [e1, e2]
    · by_cases h2 : c = ".."
      · subst h2
        cases F with
        | nil => simp [cleanStep]
        | cons t ts =>
          by_cases h3 : t = ".."
          · subst h3
            have e : cleanStep false (".." :: ts) ".." = ".." :: ".." :: ts := by
              simp [cleanStep]
            rw [e]
            simp [List.foldl_append]
          · have e : cleanStep false (t :: ts) ".." = ts := cleanStep_dotdot_cons _ _ _ h3
            have ht := hF t (List.mem_cons_self _ _)
            rw [e, List.reverse_cons, List.foldl_append, List.foldl_cons, List.foldl_nil,
              cleanStep_plain r _ t ⟨ht.1, ht.2, h3⟩, cleanStep_dotdot_cons _ _ _ h3]
      · simp only [not_or] at h1
        have hp : plain c := ⟨h1.1, h1.2, h2⟩
        rw [cleanStep_plain false F c hp, List.reverse_cons, List.foldl_append,
          List.foldl_cons, List.foldl_nil]

theorem components_mk_joinSlash (N : List String) (hN : N ≠ [])
    (h : ∀ c ∈ N, '/' ∉ c.data) : components (String.mk (joinSlash N)) = N := by
  unfold components
  show List.map String.mk (splitSlash (joinSlash N)) = N
  rw [splitSlash_joinSlash N hN h, List.map_map]
  exact List.map_id _

theorem foldl_components_render_false (r : Bool) (N st : List String)
    (h : ∀ c ∈ N, '/' ∉ c.data) :
    (components (render false N)).foldl (cleanStep r) st = N.foldl (cleanStep r) st := by
  unfold render
  simp only [Bool.false_eq_true, if_false]
  by_cases hN : N = []
  · subst hN
    simp only [if_true]
    show List.foldl (cleanStep r) st ["."] = st
    simp [cleanStep_dot]
  · rw [if_neg hN, components_mk_joinSlash N hN h]

theorem normalize_slashFree (r : Bool) (p : String) :
    ∀ c ∈ normalize r (components p), '/' ∉ c.data :=
  fun c hc => components_slashFree p c (normalize_mem r _ c hc)

/-- The elements of a cleaned path lead to the same stack as those of the path. -/
theorem foldl_components_Clean (p : String) (hp : IsAbs p = false) (st : List String) :
    (components (Clean p)).foldl (cleanStep true) st
      = (components p).foldl (cleanStep true) st := by
  rw [Clean_eq, hp, foldl_components_render_false true _ st (normalize_slashFree false p),
    foldl_normalize_false]

theorem joinSlash_head (c : String) (N : List String) :
    (joinSlash (c :: N)).head? = (c.data ++ ['/']).head? ∨
      (N = [] ∧ joinSlash (c :: N) = c.data) := by
  cases N with
  | nil => exact Or.inr ⟨rfl, rfl⟩
  | cons d N =>
    left
    simp only [joinSlash]
    cases c.data <;> rfl

theorem IsAbs_Clean (p : String) : IsAbs (Clean p) = IsAbs p := by
  rw [Clean_eq]
  cases hp : IsAbs p with
  | true => exact IsAbs_render_true _
  | false =>
    unfold render
    simp only [Bool.false_eq_true, if_false]
    split
    · decide
    · rename_i hN
      cases hl : normalize false (components p) with
      | nil => exact absurd hl hN
      | cons c N =>
        have hc : c ∈ normalize false (components p) := by rw [hl]; exact List.mem_cons_self _ _
        have hsf := normalize_slashFree false p c hc
        have hne : c ≠ "" :=
          (foldl_noDots false (components p) [] (by simp) c
            (List.mem_reverse.1 hc)).1
        have hd : ∃ x xs, c.data = x :: xs := by
          cases hcd : c.data with
          | nil => exact absurd (String.ext hcd) hne
          | cons x xs => exact ⟨x, xs, rfl⟩
        obtain ⟨x, xs, hx⟩ := hd
        have hx2 : x ≠ '/' := fun e => hsf (by rw [hx, e]; exact List.mem_cons_self _ _)
        unfold IsAbs
        rcases joinSlash_head c N with h | ⟨_, h⟩
        · show ((joinSlash (c :: N)).head? == some '/') = false
          rw [h, hx]
          simp [hx2]
        · show ((joinSlash (c :: N)).head? == some '/') = false
          rw [h, hx]
          simp [hx2]

/-! ## The path resolver -/

theorem IsAbs_append_of_ne (p q : String) (h : p ≠ "") : IsAbs (p ++ q) = IsAbs p := by
  unfold IsAbs
  rw [String.data_append]
  cases hp : p.data with
  | nil => exact absurd (String.ext hp) h
  | cons c cs => rfl

theorem normalize_append_empty (r : Bool) (X Y : List String) :
    normalize r (X ++ "" :: Y) = normalize r (X ++ Y) := by
  unfold normalize
  rw [List.foldl_append, List.foldl_cons, cleanStep_empty, ← List.foldl_append]

theorem components_empty : components "" = [""] := rfl

theorem Join_of_ne (a b : String) (h : a ≠ "") : Join a b = Clean (a ++ "/" ++ b) := by
  unfold Join
  rw [if_pos h]

theorem Join_empty_right (a : String) (h : a ≠ "") : Join a "" = Clean a := by
  rw [Join_of_ne a "" h, Clean_eq, Clean_eq a, String.append_assoc, IsAbs_append_of_ne a _ h,
    ← String.append_assoc, components_append_slash, components_empty,
    normalize_append_empty, List.append_nil]

theorem Join_slash_left (a t : String) (h : a ≠ "") : Join a ("/" ++ t) = Join a t := by
  rw [Join_of_ne a _ h, Join_of_ne a t h, Clean_eq, Clean_eq (a ++ "/" ++ t)]
  have e1 : IsAbs (a ++ "/" ++ ("/" ++ t)) = IsAbs a := by
    rw [String.append_assoc]; exact IsAbs_append_of_ne a _ h
  have e2 : IsAbs (a ++ "/" ++ t) = IsAbs a := by
    rw [String.append_assoc]; exact IsAbs_append_of_ne a _ h
  have e3 : components ("/" ++ t) = "" :: components t := by
    have : ("/" : String) ++ t = "" ++ "/" ++ t := by
      apply String.ext
      simp [String.data_append]
    rw [this, components_append_slash, components_empty]
    rfl
  rw [e1, e2, components_append_slash, components_append_slash, e3, normalize_append_empty]

theorem ne_empty_render_true (N : List String) : render true N ≠ "" := by
  intro h
  have := congrArg String.data h
  simp [render] at this

/-- A relative path resolves to the elements of the working directory followed by
its own, cleaned. -/
theorem resolve_of_relative (env : Env) (p : String) (cs : List String)
    (hp : IsAbs p = false) (hc : env.cwd = some cs) :
    Abs env p = .ok (render true
        (normalize true (components (render true cs) ++ components p))) ∧
      resolve env p = some (normalize true (components (render true cs) ++ components p)) := by
  have hA : Abs env p = .ok (render true
      (normalize true (components (render true cs) ++ components p))) := by
    unfold Abs Getwd
    simp only [hp, hc, Bool.false_eq_true, if_false]
    rw [Join_of_ne _ _ (ne_empty_render_true cs)]
    have habs : IsAbs (render true cs ++ "/" ++ p) = true := by
      rw [String.append_assoc]
      exact IsAbs_append _ _ (IsAbs_render_true cs)
    rw [Clean_of_IsAbs _ habs, components_append_slash]
  refine ⟨hA, ?_⟩
  unfold resolve
  rw [hA]
  simp only
  rw [normalize_components_render]
  intro c hcm
  refine ⟨normalize_true_plain _ c hcm, ?_⟩
  rcases List.mem_append.1 (normalize_mem _ _ c hcm) with h | h
  · exact components_slashFree _ c h
  · exact components_slashFree _ c h

theorem resolve_none (env : Env) (p : String) (hp : IsAbs p = false) (hc : env.cwd = none) :
    resolve env p = none := by
  unfold resolve Abs Getwd
  simp only [hp, hc, Bool.false_eq_true, if_false]

/-- The output of `filepath.Abs` is a cleaned absolute path, and it resolves to the
same elements as the input. -/
theorem Abs_ok (env : Env) (x t : String) (h : Abs env x = .ok t) :
    ∃ N, (∀ c ∈ N, validName c) ∧ t = render true N ∧ resolve env x = some N ∧
      resolve env t = some N := by
  cases hx : IsAbs x with
  | true =>
    rw [Abs_of_IsAbs env x hx, Clean_of_IsAbs x hx] at h
    have ht := (Except.ok.inj h).symm
    exact ⟨_, normalize_true_validName x, ht, resolve_of_IsAbs env x hx,
      by rw [ht]; exact resolve_render_true env _ (normalize_true_validName x)⟩
  | false =>
    cases hc : env.cwd with
    | none =>
      unfold Abs Getwd at h
      simp only [hx, hc, Bool.false_eq_true, if_false] at h
      cases h
    | some cs =>
      obtain ⟨hA, hR⟩ := resolve_of_relative env x cs hx hc
      rw [hA] at h
      have ht := (Except.ok.inj h).symm
      have hv : ∀ c ∈ normalize true (components (render true cs) ++ components x),
          validName c := by
        intro c hcm
        refine ⟨normalize_true_plain _ c hcm, ?_⟩
        rcases List.mem_append.1 (normalize_mem _ _ c hcm) with h1 | h1
        · exact components_slashFree _ c h1
        · exact components_slashFree _ c h1
      exact ⟨_, hv, ht, hR, by rw [ht]; exact resolve_render_true env _ hv⟩

/-- Cleaning a path does not change what it resolves to. -/
theorem resolve_Clean (env : Env) (y : String) : resolve env (Clean y) = resolve env y := by
  cases hy : IsAbs y with
  | true =>
    rw [Clean_of_IsAbs y hy, resolve_render_true env _ (normalize_true_validName y),
      resolve_of_IsAbs env y hy]
  | false =>
    have hcy : IsAbs (Clean y) = false := by rw [IsAbs_Clean, hy]
    cases hc : env.cwd with
    | none => rw [resolve_none env _ hcy hc, resolve_none env _ hy hc]
    | some cs =>
      rw [(resolve_of_relative env _ cs hcy hc).2, (resolve_of_relative env _ cs hy hc).2]
      unfold normalize
      rw [List.foldl_append, List.foldl_append, foldl_components_Clean y hy]

theorem resolveTarget_ok (env : Env) (path abs : String)
    (h : resolveTarget env path = .ok abs) : ∃ x, Abs env x = .ok abs := by
  unfold resolveTarget at h
  split at h
  · split at h
    · cases h
    · split at h
      · exact ⟨_, h⟩
      · exact ⟨_, h⟩
  · exact ⟨_, h⟩

theorem ResolveAbsolutePath_false (env : Env) (fs : FS) (path : String) :
    ResolveAbsolutePath env fs path [false] = resolveTarget env path := by
  unfold ResolveAbsolutePath
  cases resolveTarget env path <;> rfl

theorem ResolveAbsolutePath_true (env : Env) (fs : FS) (path abs : String)
    (h : resolveTarget env path = .ok abs) :
    ResolveAbsolutePath env fs path [true] =
      match Stat env fs abs with
      | .error Errno.ENOENT => .error (Error.doesNotExist abs)
      | .error e => .error (Error.sys e)
      | .ok _ => .ok abs := by
  unfold ResolveAbsolutePath
  rw [h]
  rfl

/-- C9 (existence check of the path resolver). Let the home lookup and the
absolute-path computation succeed for `path`, with the absolute path `abs` (the result
of the call with `checkExistence = false`). A call without the argument behaves as with
`true`. With the check on, the call returns an error when no entry exists at `abs`, and
otherwise returns `abs`, which is not empty. With the check off, `abs` is returned
whatever the file system holds. -/
theorem resolve_existence_check (env : Env) (fs : FS) (path abs : String)
    (h : ResolveAbsolutePath env fs path [false] = .ok abs) :
    ResolveAbsolutePath env fs path [] = ResolveAbsolutePath env fs path [true] ∧
      (¬ pathExists env fs abs →
        ∃ e, ResolveAbsolutePath env fs path [true] = .error e) ∧
      (Stat env fs abs = .error Errno.ENOENT →
        ResolveAbsolutePath env fs path [true] = .error (Error.doesNotExist abs)) ∧
      (pathExists env fs abs →
        ResolveAbsolutePath env fs path [true] = .ok abs ∧ abs ≠ "") ∧
      ∀ fs2 : FS, ResolveAbsolutePath env fs2 path [false] = .ok abs := by
  rw [ResolveAbsolutePath_false] at h
  have hT := ResolveAbsolutePath_true env fs path abs h
  refine ⟨rfl, ?_, ?_, ?_, ?_⟩
  · intro hne
    rw [hT]
    unfold pathExists at hne
    cases hs : Stat env fs abs with
    | ok i => rw [hs] at hne; exact absurd rfl hne
    | error e =>
      cases e
      · exact ⟨_, rfl⟩
      · exact ⟨_, rfl⟩
      · exact ⟨_, rfl⟩
      · exact ⟨_, rfl⟩
  · intro hs
    rw [hT, hs]
  · intro hex
    unfold pathExists at hex
    obtain ⟨x, hx⟩ := resolveTarget_ok env path abs h
    obtain ⟨N, _, hN, _, _⟩ := Abs_ok env x abs hx
    refine ⟨?_, by rw [hN]; exact ne_empty_render_true N⟩
    rw [hT]
    cases hs : Stat env fs abs with
    | ok i => rfl
    | error e => rw [hs] at hex; cases hex
  · intro fs2
    rw [ResolveAbsolutePath_false]
    exact h

/-- Witness of C9: the relative path `d` in the working directory `/tmp` of the
sample tree. -/
theorem resolve_existence_check_witness :
    ResolveAbsolutePath sampleEnv sampleFS "d" []
        = ResolveAbsolutePath sampleEnv sampleFS "d" [true] ∧
      (¬ pathExists sampleEnv sampleFS "/tmp/d" →
        ∃ e, ResolveAbsolutePath sampleEnv sampleFS "d" [true] = .error e) ∧
      (Stat sampleEnv sampleFS "/tmp/d" = .error Errno.ENOENT →
        ResolveAbsolutePath sampleEnv sampleFS "d" [true]
          = .error (Error.doesNotExist "/tmp/d")) ∧
      (pathExists sampleEnv sampleFS "/tmp/d" →
        ResolveAbsolutePath sampleEnv sampleFS "d" [true] = .ok "/tmp/d" ∧ "/tmp/d" ≠ "") ∧
      ∀ fs2 : FS, ResolveAbsolutePath sampleEnv fs2 "d" [false] = .ok "/tmp/d" :=
  resolve_existence_check sampleEnv sampleFS "d" "/tmp/d" (by decide)

/-! ## The two home-directory expansions -/

theorem tilde_data (rest : String) : ("~" ++ rest).data = '~' :: rest.data := by
  rw [String.data_append]
  rfl

theorem hasTildePrefix_tilde (rest : String) : hasTildePrefix ("~" ++ rest) = true := by
  unfold hasTildePrefix
  rw [tilde_data]
  rfl

theorem UserHomeDir_ok (env : Env) (h : env.home ≠ "") : UserHomeDir env = .ok env.home := by
  unfold UserHomeDir
  rw [if_pos h]

theorem expandOutputPath_tilde (env : Env) (rest : String) (h : env.home ≠ "") :
    expandOutputPath env ("~" ++ rest) = .ok (Join env.home rest) := by
  unfold expandOutputPath
  rw [if_pos (hasTildePrefix_tilde rest), UserHomeDir_ok env h]
  simp only [tilde_data, List.drop_succ_cons, List.drop_zero]

theorem expandOutputPath_plain (env : Env) (p : String) (h : hasTildePrefix p = false) :
    expandOutputPath env p = .ok p := by
  unfold expandOutputPath
  simp [h]

theorem resolveTarget_tilde_other (env : Env) (rest : String) (h : env.home ≠ "")
    (hr : rest.data.head? ≠ some '/') :
    resolveTarget env ("~" ++ rest) = Abs env env.home := by
  unfold resolveTarget
  rw [if_pos (hasTildePrefix_tilde rest), UserHomeDir_ok env h]
  simp only [tilde_data]
  have : ¬ (('~' :: rest.data).length > 1 ∧ ('~' :: rest.data).get? 1 = some '/') := by
    rintro ⟨_, h2⟩
    apply hr
    cases hd : rest.data with
    | nil => rw [hd] at h2; simp at h2
    | cons x xs => rw [hd] at h2; simpa using h2
  rw [if_neg this]

theorem resolveTarget_tilde_slash (env : Env) (t0 : String) (h : env.home ≠ "") :
    resolveTarget env ("~/" ++ t0) = Abs env (Join env.home t0) := by
  have hd : ("~/" ++ t0).data = '~' :: '/' :: t0.data := by
    rw [String.data_append]
    rfl
  have ht : hasTildePrefix ("~/" ++ t0) = true := by
    unfold hasTildePrefix
    rw [hd]
    rfl
  unfold resolveTarget
  rw [if_pos ht, UserHomeDir_ok env h]
  simp only [hd]
  have : ('~' :: '/' :: t0.data).length > 1 ∧ ('~' :: '/' :: t0.data).get? 1 = some '/' := by
    simp
  rw [if_pos this]
  rfl

theorem resolveTarget_plain (env : Env) (p : String) (h : hasTildePrefix p = false) :
    resolveTarget env p = Abs env p := by
  unfold resolveTarget
  simp [h]

theorem tilde_slash_eq (t0 : String) : "~/" ++ t0 = "~" ++ ("/" ++ t0) := by
  apply String.ext
  simp [String.data_append]

/-- C8, the code at two failing inputs. With `$HOME` = `/home/u`, an existing
directory, the output file `~backup.json` is written to `/home/u` itself, but
`ValidateOutputPath` checks `/home/u/backup.json` and returns no error; the write then
fails on the directory. With `$HOME` naming the regular file `/tmp/d/a.txt`, the output
file `~../../new.json` passes validation (the path checked is `/tmp/new.json`) and
`BackupPermissions` succeeds, overwriting the existing file `/tmp/d/a.txt`. -/
theorem backup_overwrite_failing_inputs :
    ResolveAbsolutePath sampleEnv sampleFS "~backup.json" [false] = .ok "/home/u" ∧
      pathExists sampleEnv sampleFS "/home/u" ∧
      expandOutputPath sampleEnv "~backup.json" = .ok "/home/u/backup.json" ∧
      ValidateOutputPath sampleEnv sampleFS "~backup.json" = none ∧
      BackupPermissions sampleEnv sampleFS "d" "~backup.json"
        = (some (Error.writing (Error.sys Errno.EISDIR)), sampleFS) ∧
      ResolveAbsolutePath fileHomeEnv sampleFS "~../../new.json" [false]
        = .ok "/tmp/d/a.txt" ∧
      Stat fileHomeEnv sampleFS "/tmp/d/a.txt" = .ok (fileNode 0o644) ∧
      expandOutputPath fileHomeEnv "~../../new.json" = .ok "/tmp/new.json" ∧
      ValidateOutputPath fileHomeEnv sampleFS "~../../new.json" = none ∧
      (BackupPermissions fileHomeEnv sampleFS "d" "~../../new.json").1 = none ∧
      Stat fileHomeEnv (BackupPermissions fileHomeEnv sampleFS "d" "~../../new.json").2
          "/tmp/d/a.txt"
        = .ok { isDir := false, perm := 0o644,
                content := [visit "/tmp/d" (dirNode 0o755),
                  visit "/tmp/d/a.txt" (fileNode 0o644),
                  visit "/tmp/d/sub" (dirNode 0o755)] } := by
  decide

/-! ## The applier over an arbitrary system-call layer -/

theorem Sys.restoreOne_valid_eq (sys : Sys) (r : FilePermissions) (fs : FS)
    (hv : validRecord r) :
    sys.restoreOne r fs =
      if sys.stat fs r.Path = .error Errno.ENOENT then
        .error (Error.restoreMissing r.Path)
      else
        match sys.chmod fs r.Path (modeOf r) with
        | .error e =>
          if r.IsDirectory then .error (Error.restoreDir r.Path (Error.sys e))
          else .error (Error.restoreFile r.Path (Error.sys e))
        | .ok fs1 => .ok fs1 := by
  obtain ⟨h1, h2, h3⟩ := hv
  simp only [Sys.restoreOne, h1, h2, h3, convertPermissionsToOctal, modeOf]

theorem Sys.restoreOne_invalid (sys : Sys) (r : FilePermissions) (fs : FS)
    (hv : ¬ validRecord r) : ∃ e, sys.restoreOne r fs = .error e := by
  unfold Sys.restoreOne
  unfold validRecord at hv
  cases h1 : ValidatePermissionString r.User with
  | some e => exact ⟨_, rfl⟩
  | none =>
    cases h2 : ValidatePermissionString r.Group with
    | some e => exact ⟨_, rfl⟩
    | none =>
      cases h3 : ValidatePermissionString r.Other with
      | some e => exact ⟨_, rfl⟩
      | none => exact absurd ⟨h1, h2, h3⟩ hv

/-- One pass of the loop body succeeds exactly when the strings are valid, `os.Stat`
does not report the path missing and `os.Chmod` succeeds; the state left is the one
`os.Chmod` returns. -/
theorem Sys.restoreOne_ok_iff (sys : Sys) (r : FilePermissions) (fs fs1 : FS) :
    sys.restoreOne r fs = .ok fs1 ↔
      validRecord r ∧ sys.stat fs r.Path ≠ .error Errno.ENOENT ∧
        sys.chmod fs r.Path (modeOf r) = .ok fs1 := by
  constructor
  · intro h
    by_cases hv : validRecord r
    · rw [Sys.restoreOne_valid_eq sys r fs hv] at h
      by_cases hs : sys.stat fs r.Path = .error Errno.ENOENT
      · rw [if_pos hs] at h; cases h
      · rw [if_neg hs] at h
        refine ⟨hv, hs, ?_⟩
        cases hc : sys.chmod fs r.Path (modeOf r) with
        | error e =>
          rw [hc] at h
          by_cases hd : r.IsDirectory = true
          · simp [hd] at h
          · simp [hd] at h
        | ok fs2 =>
          rw [hc] at h
          simpa using h
    · obtain ⟨e, he⟩ := Sys.restoreOne_invalid sys r fs hv
      rw [he] at h
      cases h
  · rintro ⟨hv, hs, hc⟩
    rw [Sys.restoreOne_valid_eq sys r fs hv, if_neg hs, hc]

theorem Sys.restoreOne_fails (sys : Sys) (r : FilePermissions) (fs : FS)
    (h : sys.failsAt r fs) : ∃ e, sys.restoreOne r fs = .error e := by
  cases hr : sys.restoreOne r fs with
  | error e => exact ⟨e, rfl⟩
  | ok fs1 =>
    obtain ⟨hv, hs, hc⟩ := (Sys.restoreOne_ok_iff sys r fs fs1).1 hr
    rcases h with h | h | ⟨e, h⟩
    · exact absurd hv h
    · exact absurd h hs
    · rw [hc] at h; cases h

theorem Sys.restore_of_passes (sys : Sys) :
    ∀ (pre rest : List FilePermissions) (fs fsPre : FS), sys.passes pre fs fsPre →
      sys.RestorePermissionsFromJSON (pre ++ rest) fs
          = sys.RestorePermissionsFromJSON rest fsPre ∧
        sys.chmodAll pre fs = some fsPre := by
  intro pre
  induction pre with
  | nil =>
    intro rest fs fsPre h
    simp only [Sys.passes] at h
    subst h
    exact ⟨rfl, rfl⟩
  | cons r pre ih =>
    intro rest fs fsPre h
    obtain ⟨hv, hs, fs1, hc, hrest⟩ := h
    have hone : sys.restoreOne r fs = .ok fs1 :=
      (Sys.restoreOne_ok_iff sys r fs fs1).2 ⟨hv, hs, hc⟩
    obtain ⟨i1, i2⟩ := ih rest fs1 fsPre hrest
    refine ⟨?_, ?_⟩
    · simp only [List.cons_append, Sys.RestorePermissionsFromJSON, hone]
      exact i1
    · simp only [Sys.chmodAll, hc]
      exact i2

/-- A run without error is a run in which every step of every record succeeds. -/
theorem Sys.passes_of_restore (sys : Sys) :
    ∀ (recs : List FilePermissions) (fs fs1 : FS),
      sys.RestorePermissionsFromJSON recs fs = (none, fs1) → sys.passes recs fs fs1 := by
  intro recs
  induction recs with
  | nil =>
    intro fs fs1 h
    simp only [Sys.RestorePermissionsFromJSON, Prod.mk.injEq, true_and] at h
    exact h.symm
  | cons r recs ih =>
    intro fs fs1 h
    simp only [Sys.RestorePermissionsFromJSON] at h
    cases hone : sys.restoreOne r fs with
    | error e => rw [hone] at h; simp at h
    | ok fs2 =>
      rw [hone] at h
      obtain ⟨hv, hs, hc⟩ := (Sys.restoreOne_ok_iff sys r fs fs2).1 hone
      exact ⟨hv, hs, fs2, hc, ih fs2 fs1 h⟩

/-- C6, counterexample. For a process that is not the superuser, on the sample tree:
the records for `/tmp/d` (`---------`) and `/tmp/d/a.txt` (`rwx------`) are valid and
their paths exist, the third record is the first with an invalid string; yet the loop
stops with an error at the second record, whose `os.Chmod` is refused once the
directory is closed, and `a.txt` keeps the bits `rw-r--r--`: the records before the
first invalid one are not all applied. -/
theorem restore_partial_failure_counterexample :
    validRecord closeDirRecord ∧ validRecord openFileRecord ∧
      (posixSys sampleEnv false).stat sampleFS closeDirRecord.Path = .ok (dirNode 0o755) ∧
      (posixSys sampleEnv false).stat sampleFS openFileRecord.Path = .ok (fileNode 0o644) ∧
      ¬ validRecord invalidRecord ∧
      ((posixSys sampleEnv false).RestorePermissionsFromJSON
          [closeDirRecord, openFileRecord, invalidRecord] sampleFS).1
        = some (Error.restoreFile "/tmp/d/a.txt" (Error.sys Errno.EACCES)) ∧
      modeOf openFileRecord = 0o700 ∧
      ((posixSys sampleEnv false).RestorePermissionsFromJSON
          [closeDirRecord, openFileRecord, invalidRecord] sampleFS).2.inode
            ["tmp", "d", "a.txt"] = .ok (fileNode 0o644) ∧
      ((posixSys sampleEnv false).RestorePermissionsFromJSON
          [closeDirRecord, openFileRecord, invalidRecord] sampleFS).2.inode
            ["tmp", "d"] = .ok (dirNode 0) := by
  decide

/-- C6, amended (partial-failure policy of restore). Whatever the system calls do: if
every step succeeds for the records before record `r` (valid strings, a path
`os.Stat` does not report missing, a successful `os.Chmod`), leaving the state `fsPre`,
and a step fails for `r` (an invalid user, group or other string, a path reported
missing, or a failing `os.Chmod`), then `RestorePermissionsFromJSON` returns an error
and leaves exactly `fsPre`, the state of the `os.Chmod` calls of the earlier records in
order: they stay applied, and neither `r` nor any later record changes anything. -/
theorem restore_stops_at_first_failure (sys : Sys) (fs fsPre : FS)
    (pre : List FilePermissions) (r : FilePermissions) (post : List FilePermissions)
    (hpre : sys.passes pre fs fsPre) (hbad : sys.failsAt r fsPre) :
    (∃ e, sys.RestorePermissionsFromJSON (pre ++ r :: post) fs = (some e, fsPre)) ∧
      sys.RestorePermissionsFromJSON pre fs = (none, fsPre) ∧
      sys.chmodAll pre fs = some fsPre := by
  obtain ⟨h1, h2⟩ := Sys.restore_of_passes sys pre (r :: post) fs fsPre hpre
  obtain ⟨h3, _⟩ := Sys.restore_of_passes sys pre [] fs fsPre hpre
  obtain ⟨e, he⟩ := Sys.restoreOne_fails sys r fsPre hbad
  refine ⟨⟨e, ?_⟩, ?_, h2⟩
  · rw [h1]
    simp only [Sys.RestorePermissionsFromJSON, he]
  · rw [List.append_nil] at h3
    rw [h3]
    rfl

/-- Witness of the amended C6, for a process that is not the superuser: the record
for `/tmp/d` passes and closes the directory, the `os.Chmod` of the record for
`/tmp/d/a.txt` is then refused, the third record is never reached. -/
theorem restore_stops_at_first_failure_witness :
    (∃ e, (posixSys sampleEnv false).RestorePermissionsFromJSON
        ([closeDirRecord] ++ openFileRecord :: [invalidRecord]) sampleFS
        = (some e, sampleFS.modify (setPerm 0) ["tmp", "d"])) ∧
      (posixSys sampleEnv false).RestorePermissionsFromJSON [closeDirRecord] sampleFS
        = (none, sampleFS.modify (setPerm 0) ["tmp", "d"]) ∧
      (posixSys sampleEnv false).chmodAll [closeDirRecord] sampleFS
        = some (sampleFS.modify (setPerm 0) ["tmp", "d"]) :=
  restore_stops_at_first_failure (posixSys sampleEnv false) sampleFS
    (sampleFS.modify (setPerm 0) ["tmp", "d"]) [closeDirRecord] openFileRecord
    [invalidRecord]
    ⟨by decide, by decide, sampleFS.modify (setPerm 0) ["tmp", "d"], by decide, rfl⟩
    (Or.inr (Or.inr ⟨Errno.EACCES, by decide⟩))

/-! ## The kernel's path walk -/

theorem cleanStep_true_dotdot (st : List String) (h : ∀ t ∈ st, plain t) :
    cleanStep true st ".." = st.tail := by
  cases st with
  | nil => simp [cleanStep]
  | cons t ts =>
    have ht : t ≠ ".." := (h t (List.mem_cons_self _ _)).2.2
    simp [cleanStep, ht]

/-- A path walk that succeeds ends where the cleaned path leads. -/
theorem namei_lexical (root : Bool) (fs : FS) :
    ∀ (comps st st1 : List String), (∀ t ∈ st, plain t) →
      namei root fs comps st = .ok st1 → st1 = comps.foldl (cleanStep true) st := by
  intro comps
  induction comps with
  | nil =>
    intro st st1 _ h
    simp only [namei, Except.ok.injEq] at h
    exact h.symm
  | cons c cs ih =>
    intro st st1 hst h
    rw [List.foldl_cons]
    unfold namei at h
    cases hi : fs.inode st.reverse with
    | error e => rw [hi] at h; cases h
    | ok d =>
      rw [hi] at h
      simp only at h
      by_cases hd : d.isDir = true
      · simp only [hd, Bool.not_true, Bool.false_eq_true, if_false] at h
        by_cases h1 : c = ""
        · rw [if_pos h1] at h
          rw [h1, cleanStep_empty]
          exact ih st st1 hst h
        · rw [if_neg h1] at h
          by_cases hs : maySearch root d = true
          · simp only [hs, Bool.not_true, Bool.false_eq_true, if_false] at h
            by_cases h2 : c = "."
            · rw [if_pos h2] at h
              rw [h2, cleanStep_dot]
              exact ih st st1 hst h
            · rw [if_neg h2] at h
              by_cases h3 : c = ".."
              · rw [if_pos h3] at h
                rw [h3, cleanStep_true_dotdot st hst]
                exact ih st.tail st1 (fun t ht => hst t (List.mem_of_mem_tail ht)) h
              · rw [if_neg h3] at h
                have hp : plain c := ⟨h1, h2, h3⟩
                rw [cleanStep_plain true st c hp]
                cases hc : fs.inode (c :: st).reverse with
                | error e => rw [hc] at h; cases h
                | ok j =>
                  rw [hc] at h
                  refine ih (c :: st) st1 ?_ h
                  intro t ht
                  rcases List.mem_cons.1 ht with e | e
                  · rw [e]; exact hp
                  · exact hst t e
          · simp only [hs, Bool.not_false, if_true] at h
            cases h
      · simp only [hd, Bool.not_false, if_true] at h
        cases h

theorem walkStart_lexical (env : Env) (path : String) (st : List String)
    (h : walkStart env path = some st) :
    (∀ t ∈ st, plain t) ∧
      resolve env path = some ((components path).foldl (cleanStep true) st).reverse := by
  unfold walkStart at h
  by_cases ha : IsAbs path = true
  · rw [if_pos ha] at h
    have hst : st = [] := (Option.some.inj h).symm
    subst hst
    exact ⟨by simp, resolve_of_IsAbs env path ha⟩
  · have ha2 : IsAbs path = false := by simpa using ha
    rw [if_neg ha] at h
    cases hc : env.cwd with
    | none => rw [hc] at h; cases h
    | some cs =>
      rw [hc] at h
      have hst := (Option.some.inj h).symm
      subst hst
      refine ⟨foldl_true_plain _ [] (by simp), ?_⟩
      rw [(resolve_of_relative env path cs ha2 hc).2]
      unfold normalize
      rw [List.foldl_append]

/-- A path the kernel resolves leads to the place its cleaned absolute form names. -/
theorem locate_lexical (env : Env) (root : Bool) (fs : FS) (path : String)
    (pos : List String) (h : locate env root fs path = .ok pos) :
    resolve env path = some pos := by
  unfold locate at h
  by_cases hp : path = ""
  · rw [if_pos hp] at h; cases h
  · rw [if_neg hp] at h
    cases hs : walkStart env path with
    | none => rw [hs] at h; cases h
    | some st =>
      rw [hs] at h
      simp only at h
      obtain ⟨hplain, hres⟩ := walkStart_lexical env path st hs
      cases hn : namei root fs (components path) st with
      | error e => rw [hn] at h; cases h
      | ok st1 =>
        rw [hn] at h
        simp only [Except.ok.injEq] at h
        rw [hres, ← namei_lexical root fs _ st st1 hplain hn, h]

theorem posixChmod_ok (env : Env) (root : Bool) (fs fs1 : FS) (path : String) (mode : Nat)
    (h : posixChmod env root fs path mode = .ok fs1) :
    ∃ pos, locate env root fs path = .ok pos ∧ resolve env path = some pos ∧
      fs1 = fs.modify (setPerm mode) pos := by
  unfold posixChmod at h
  cases hl : locate env root fs path with
  | error e => rw [hl] at h; cases h
  | ok pos =>
    rw [hl] at h
    exact ⟨pos, rfl, locate_lexical env root fs path pos hl, (Except.ok.inj h).symm⟩

theorem view_after_modify (env : Env) (fs : FS) (r : FilePermissions) (pos : List String)
    (hr : resolve env r.Path = some pos) :
    (fs.modify (setPerm (modeOf r)) pos).inode = viewAfter env fs.inode r := by
  funext q
  rw [inode_modify fs (setPerm (modeOf r)) (setPerm_isDir _) pos q]
  simp only [viewAfter, hr]
  by_cases h : q = pos
  · subst h; simp
  · have : ¬ (some pos = some q) := fun e => h (Option.some.inj e).symm
    simp [h, this]

/-- The lookups after a run without error: each record has set the permission bits of
the place its path names, in order. -/
theorem posix_passes_view (env : Env) (root : Bool) :
    ∀ (recs : List FilePermissions) (fs fs1 : FS),
      (posixSys env root).passes recs fs fs1 →
      fs1.inode = recs.foldl (viewAfter env) fs.inode := by
  intro recs
  induction recs with
  | nil =>
    intro fs fs1 h
    simp only [Sys.passes] at h
    rw [h]
    rfl
  | cons r recs ih =>
    intro fs fs1 h
    obtain ⟨_, _, fs2, hc, hrest⟩ := h
    obtain ⟨pos, _, hres, hfs2⟩ := posixChmod_ok env root fs fs2 r.Path (modeOf r) hc
    rw [List.foldl_cons, ih fs2 fs1 hrest, hfs2, view_after_modify env fs r pos hres]

theorem namei_congr (root : Bool) (fs fs2 : FS) (h : fs.inode = fs2.inode) :
    ∀ (comps st : List String), namei root fs comps st = namei root fs2 comps st := by
  intro comps
  induction comps with
  | nil => intro st; rfl
  | cons c cs ih =>
    intro st
    unfold namei
    rw [h]
    simp only [ih]

theorem posixStat_congr (env : Env) (root : Bool) (fs fs2 : FS) (h : fs.inode = fs2.inode)
    (path : String) : posixStat env root fs path = posixStat env root fs2 path := by
  unfold posixStat locate
  simp only [namei_congr root fs fs2 h, h]

theorem resolve_some_Abs (env : Env) (p : String) (q : List String)
    (h : resolve env p = some q) : Abs env p = .ok (render true q) := by
  cases ha : Abs env p with
  | error e =>
    unfold resolve at h
    rw [ha] at h
    cases h
  | ok t =>
    obtain ⟨N, _, ht, hN, _⟩ := Abs_ok env p t ha
    rw [hN] at h
    rw [ht, Option.some.inj h]

theorem inode_modify_cases (fs : FS) (mode : Nat) (cs q : List String) :
    (∃ e, fs.inode q = .error e ∧ (fs.modify (setPerm mode) cs).inode q = .error e) ∨
      (∃ d d2, fs.inode q = .ok d ∧ (fs.modify (setPerm mode) cs).inode q = .ok d2 ∧
        d2.isDir = d.isDir) := by
  rw [inode_modify fs (setPerm mode) (setPerm_isDir mode)]
  cases hq : fs.inode q with
  | error e =>
    left
    refine ⟨e, rfl, ?_⟩
    split <;> rfl
  | ok d =>
    right
    by_cases h : q = cs
    · exact ⟨d, setPerm mode d, rfl, by rw [if_pos h]; rfl, rfl⟩
    · exact ⟨d, d, rfl, by rw [if_neg h], rfl⟩

/-- For the superuser a change of permission bits does not change where a path
leads. -/
theorem namei_root_modify (fs : FS) (mode : Nat) (pos : List String) :
    ∀ (comps st : List String),
      namei true (fs.modify (setPerm mode) pos) comps st = namei true fs comps st := by
  intro comps
  induction comps with
  | nil => intro st; rfl
  | cons c cs ih =>
    intro st
    unfold namei
    rcases inode_modify_cases fs mode pos st.reverse with ⟨e, h1, h2⟩ | ⟨d, d2, h1, h2, h3⟩
    · rw [h1, h2]
    · rw [h1, h2]
      simp only [h3, maySearch, Bool.true_or, Bool.not_true, Bool.false_eq_true, if_false, ih]
      rcases inode_modify_cases fs mode pos (c :: st).reverse with
        ⟨e, k1, k2⟩ | ⟨j, j2, k1, k2, _⟩
      · rw [k1, k2]
      · rw [k1, k2]

theorem locate_root_modify (env : Env) (fs : FS) (mode : Nat) (pos : List String)
    (path : String) :
    locate env true (fs.modify (setPerm mode) pos) path = locate env true fs path := by
  unfold locate
  simp only [namei_root_modify]

theorem posixStat_ok_iff (env : Env) (root : Bool) (fs : FS) (path : String) :
    (∃ i, posixStat env root fs path = .ok i) ↔
      ∃ pos i, locate env root fs path = .ok pos ∧ fs.inode pos = .ok i := by
  unfold posixStat
  cases hl : locate env root fs path with
  | error e => simp
  | ok pos => simp

/-- For the superuser, records that are all valid and whose paths all exist are all
applied. -/
theorem posix_root_restore (env : Env) :
    ∀ (recs : List FilePermissions) (fs : FS),
      (∀ r ∈ recs, validRecord r ∧ ∃ i, (posixSys env true).stat fs r.Path = .ok i) →
      ∃ fs1, (posixSys env true).RestorePermissionsFromJSON recs fs = (none, fs1) := by
  intro recs
  induction recs with
  | nil => intro fs _; exact ⟨fs, rfl⟩
  | cons r recs ih =>
    intro fs h
    obtain ⟨hv, i, hi⟩ := h r (List.mem_cons_self _ _)
    obtain ⟨pos, j, hl, _⟩ := (posixStat_ok_iff env true fs r.Path).1 ⟨i, hi⟩
    have hc : (posixSys env true).chmod fs r.Path (modeOf r)
        = .ok (fs.modify (setPerm (modeOf r)) pos) := by
      show posixChmod env true fs r.Path (modeOf r) = _
      unfold posixChmod
      rw [hl]
    have hs : (posixSys env true).stat fs r.Path ≠ .error Errno.ENOENT := by
      rw [hi]; intro e; cases e
    have hone := (Sys.restoreOne_ok_iff (posixSys env true) r fs _).2 ⟨hv, hs, hc⟩
    have hrest : ∀ x ∈ recs, validRecord x ∧
        ∃ i, (posixSys env true).stat (fs.modify (setPerm (modeOf r)) pos) x.Path = .ok i := by
      intro x hx
      obtain ⟨hxv, k, hk⟩ := h x (List.mem_cons_of_mem _ hx)
      refine ⟨hxv, ?_⟩
      obtain ⟨q, k2, hq, hk2⟩ := (posixStat_ok_iff env true fs x.Path).1 ⟨k, hk⟩
      apply (posixStat_ok_iff env true _ x.Path).2
      rw [locate_root_modify]
      rcases inode_modify_cases fs (modeOf r) pos q with ⟨e, h1, _⟩ | ⟨d, d2, _, h2, _⟩
      · rw [hk2] at h1; cases h1
      · exact ⟨q, d2, hq, h2⟩
    obtain ⟨fs1, hfs1⟩ := ih _ hrest
    refine ⟨fs1, ?_⟩
    simp only [Sys.RestorePermissionsFromJSON, hone]
    exact hfs1

/-- C7, counterexample. For a process that is not the superuser, on the sample tree.
First, the paths `/tmp/d/a.txt` and `/tmp/d//a.txt` are distinct strings, both records
are valid, both paths exist and both orders succeed, yet the file ends with the bits
`---------` in one order and `rwxrwxrwx` in the other: the two paths name one file.
Second, the records for `/tmp/d` (`---------`) and `/tmp/d/a.txt` (`rwx------`) name two
files, are valid and their paths exist, yet the restore fails when the directory comes
first and succeeds in the other order. -/
theorem restore_order_counterexample :
    ((mkRecord "/tmp/d/a.txt" "rwx" "rwx" "rwx" false).Path
        ≠ (mkRecord "/tmp/d//a.txt" "---" "---" "---" false).Path ∧
      validRecord (mkRecord "/tmp/d/a.txt" "rwx" "rwx" "rwx" false) ∧
      validRecord (mkRecord "/tmp/d//a.txt" "---" "---" "---" false) ∧
      (posixSys sampleEnv false).stat sampleFS "/tmp/d/a.txt" = .ok (fileNode 0o644) ∧
      (posixSys sampleEnv false).stat sampleFS "/tmp/d//a.txt" = .ok (fileNode 0o644) ∧
      ((posixSys sampleEnv false).RestorePermissionsFromJSON
        [mkRecord "/tmp/d/a.txt" "rwx" "rwx" "rwx" false,
          mkRecord "/tmp/d//a.txt" "---" "---" "---" false] sampleFS).1 = none ∧
      ((posixSys sampleEnv false).RestorePermissionsFromJSON
        [mkRecord "/tmp/d//a.txt" "---" "---" "---" false,
          mkRecord "/tmp/d/a.txt" "rwx" "rwx" "rwx" false] sampleFS).1 = none ∧
      (posixSys sampleEnv false).stat ((posixSys sampleEnv false).RestorePermissionsFromJSON
        [mkRecord "/tmp/d/a.txt" "rwx" "rwx" "rwx" false,
          mkRecord "/tmp/d//a.txt" "---" "---" "---" false] sampleFS).2 "/tmp/d/a.txt"
        = .ok (fileNode 0) ∧
      (posixSys sampleEnv false).stat ((posixSys sampleEnv false).RestorePermissionsFromJSON
        [mkRecord "/tmp/d//a.txt" "---" "---" "---" false,
          mkRecord "/tmp/d/a.txt" "rwx" "rwx" "rwx" false] sampleFS).2 "/tmp/d/a.txt"
        = .ok (fileNode 0o777)) ∧
    (closeDirRecord.Path ≠ openFileRecord.Path ∧
      Abs sampleEnv closeDirRecord.Path ≠ Abs sampleEnv openFileRecord.Path ∧
      validRecord closeDirRecord ∧ validRecord openFileRecord ∧
      (posixSys sampleEnv false).stat sampleFS closeDirRecord.Path = .ok (dirNode 0o755) ∧
      (posixSys sampleEnv false).stat sampleFS openFileRecord.Path = .ok (fileNode 0o644) ∧
      ((posixSys sampleEnv false).RestorePermissionsFromJSON
        [closeDirRecord, openFileRecord] sampleFS).1
          = some (Error.restoreFile "/tmp/d/a.txt" (Error.sys Errno.EACCES)) ∧
      ((posixSys sampleEnv false).RestorePermissionsFromJSON
        [openFileRecord, closeDirRecord] sampleFS).1 = none) := by
  decide

/-- C7, amended. Let the paths of the record list be pairwise distinct in their cleaned
absolute form (`filepath.Abs`), so that they name pairwise distinct files, and take any
permutation of the list. Whenever `RestorePermissionsFromJSON` succeeds for both orders
on the same initial file system, it leaves the same inode, hence the same permission
bits, under every path: each record has set exactly the mode of its own path, and a
place no record names keeps its inode. For the superuser both orders do succeed when
all permission strings are valid and all paths exist. -/
theorem restore_order_independent (env : Env) (root : Bool) (fs : FS)
    (recs recs2 : List FilePermissions) (hperm : recs.Perm recs2)
    (hdist : (recs.map (fun r => Abs env r.Path)).Nodup) :
    (∀ fs1 fs2 : FS,
      (posixSys env root).RestorePermissionsFromJSON recs fs = (none, fs1) →
      (posixSys env root).RestorePermissionsFromJSON recs2 fs = (none, fs2) →
      fs1.inode = fs2.inode ∧
        (∀ path, (posixSys env root).stat fs1 path = (posixSys env root).stat fs2 path) ∧
        (∀ r ∈ recs, ∃ pos, resolve env r.Path = some pos ∧
          fs1.inode pos = (fs.inode pos).map (setPerm (modeOf r))) ∧
        (∀ pos, (∀ r ∈ recs, resolve env r.Path ≠ some pos) →
          fs1.inode pos = fs.inode pos)) ∧
      (root = true →
        (∀ r ∈ recs, validRecord r ∧ ∃ i, (posixSys env root).stat fs r.Path = .ok i) →
        ∃ fs1 fs2, (posixSys env root).RestorePermissionsFromJSON recs fs = (none, fs1) ∧
          (posixSys env root).RestorePermissionsFromJSON recs2 fs = (none, fs2)) := by
  have hinj : ∀ x ∈ recs, ∀ y ∈ recs, ∀ q, resolve env x.Path = some q →
      resolve env y.Path = some q → x = y := by
    intro x hx y hy q hxq hyq
    apply List.inj_on_of_nodup_map hdist hx hy
    show Abs env x.Path = Abs env y.Path
    rw [resolve_some_Abs env _ q hxq, resolve_some_Abs env _ q hyq]
  constructor
  · intro fs1 fs2 h1 h2
    have v1 := posix_passes_view env root recs fs fs1
      (Sys.passes_of_restore _ recs fs fs1 h1)
    have v2 := posix_passes_view env root recs2 fs fs2
      (Sys.passes_of_restore _ recs2 fs fs2 h2)
    have hview : recs.foldl (viewAfter env) fs.inode
        = recs2.foldl (viewAfter env) fs.inode :=
      hperm.foldl_eq' (fun x hx y hy z => viewAfter_comm env z x y (hinj x hx y hy)) _
    have heq : fs1.inode = fs2.inode := by rw [v1, v2, hview]
    refine ⟨heq, fun path => posixStat_congr env root fs1 fs2 heq path, ?_, ?_⟩
    · intro r hr
      have hp := Sys.passes_of_restore _ recs fs fs1 h1
      have hres : ∃ pos, resolve env r.Path = some pos := by
        clear v1 v2 hview heq h1 h2 hinj hdist hperm
        induction recs generalizing fs with
        | nil => cases hr
        | cons x xs ih =>
          obtain ⟨_, _, fs3, hc, hrest⟩ := hp
          rcases List.mem_cons.1 hr with e | e
          · obtain ⟨pos, _, hpos, _⟩ := posixChmod_ok env root fs fs3 x.Path (modeOf x) hc
            exact ⟨pos, by rw [e]; exact hpos⟩
          · exact ih fs3 e hrest
      obtain ⟨pos, hpos⟩ := hres
      refine ⟨pos, hpos, ?_⟩
      have hc : ∀ x ∈ recs, resolve env x.Path = some pos →
          Perm (modeOf x) = Perm (modeOf r) := by
        intro x hx hxq
        rw [hinj x hx r hr pos hxq hpos]
      rw [v1, foldl_view_const env pos (modeOf r) recs fs.inode hc, if_pos ⟨r, hr, hpos⟩]
    · intro pos hp
      have hc : ∀ x ∈ recs, resolve env x.Path = some pos → Perm (modeOf x) = Perm 0 :=
        fun x hx hxq => absurd hxq (hp x hx)
      have hne : ¬ ∃ x ∈ recs, resolve env x.Path = some pos := by
        rintro ⟨x, hx, hxq⟩
        exact hp x hx hxq
      rw [v1, foldl_view_const env pos 0 recs fs.inode hc, if_neg hne]
  · intro hroot hok
    subst hroot
    have hok2 : ∀ r ∈ recs2, validRecord r ∧
        ∃ i, (posixSys env true).stat fs r.Path = .ok i :=
      fun r hr => hok r (hperm.mem_iff.2 hr)
    obtain ⟨fs1, h1⟩ := posix_root_restore env recs fs hok
    obtain ⟨fs2, h2⟩ := posix_root_restore env recs2 fs hok2
    exact ⟨fs1, fs2, h1, h2⟩

/-- Witness of the amended C7 on the sample tree, for a process that is not the
superuser: the records for `/tmp/d/a.txt` and `/tmp/d/sub`, in both orders. -/
theorem restore_order_independent_witness :
    ((posixSys sampleEnv false).RestorePermissionsFromJSON
        [openFileRecord, mkRecord "/tmp/d/sub" "r-x" "---" "---" true] sampleFS).2.inode
      = ((posixSys sampleEnv false).RestorePermissionsFromJSON
        [mkRecord "/tmp/d/sub" "r-x" "---" "---" true, openFileRecord] sampleFS).2.inode ∧
      (∀ path, (posixSys sampleEnv false).stat
          ((posixSys sampleEnv false).RestorePermissionsFromJSON
            [openFileRecord, mkRecord "/tmp/d/sub" "r-x" "---" "---" true] sampleFS).2 path
        = (posixSys sampleEnv false).stat
          ((posixSys sampleEnv false).RestorePermissionsFromJSON
            [mkRecord "/tmp/d/sub" "r-x" "---" "---" true, openFileRecord] sampleFS).2
            path) ∧
      (∀ r ∈ [openFileRecord, mkRecord "/tmp/d/sub" "r-x" "---" "---" true],
        ∃ pos, resolve sampleEnv r.Path = some pos ∧
          ((posixSys sampleEnv false).RestorePermissionsFromJSON
            [openFileRecord, mkRecord "/tmp/d/sub" "r-x" "---" "---" true]
            sampleFS).2.inode pos = (sampleFS.inode pos).map (setPerm (modeOf r))) ∧
      (∀ pos, (∀ r ∈ [openFileRecord, mkRecord "/tmp/d/sub" "r-x" "---" "---" true],
          resolve sampleEnv r.Path ≠ some pos) →
        ((posixSys sampleEnv false).RestorePermissionsFromJSON
            [openFileRecord, mkRecord "/tmp/d/sub" "r-x" "---" "---" true]
            sampleFS).2.inode pos = sampleFS.inode pos) :=
  (restore_order_independent sampleEnv false sampleFS
    [openFileRecord, mkRecord "/tmp/d/sub" "r-x" "---" "---" true]
    [mkRecord "/tmp/d/sub" "r-x" "---" "---" true, openFileRecord]
    (List.Perm.swap _ _ _) (by decide)).1 _ _ (by decide) (by decide)

/-! ## The two home-directory expansions, over an arbitrary system-call layer -/

theorem Sys.resolve_unchecked (sys : Sys) (fs : FS) (path : String) :
    sys.ResolveAbsolutePath fs path [false] = resolveTarget sys.env path := by
  unfold Sys.ResolveAbsolutePath
  cases resolveTarget sys.env path <;> rfl

/-- For `~`, `~/...` and paths without `~`, the path that is checked and the path that
is resolved have the same cleaned absolute form. -/
theorem expansions_agree (env : Env) (hhome : env.home ≠ "") (p v t : String)
    (hp : p = "~" ∨ (∃ t0, p = "~/" ++ t0) ∨ hasTildePrefix p = false)
    (hv : expandOutputPath env p = .ok v) (ht : resolveTarget env p = .ok t) :
    resolve env v = resolve env t := by
  have hempty : ("" : String).data.head? ≠ some '/' := by decide
  have htilde : resolveTarget env "~" = Abs env env.home :=
    resolveTarget_tilde_other env "" hhome hempty
  rcases hp with h | ⟨t0, h⟩ | h
  · subst h
    rw [htilde] at ht
    have hv2 : expandOutputPath env ("~" ++ "") = .ok v := hv
    rw [expandOutputPath_tilde env "" hhome, Join_empty_right _ hhome] at hv2
    obtain ⟨N, _, _, hN1, hN2⟩ := Abs_ok env env.home t ht
    rw [← Except.ok.inj hv2, resolve_Clean, hN1, hN2]
  · subst h
    rw [resolveTarget_tilde_slash env t0 hhome] at ht
    rw [tilde_slash_eq, expandOutputPath_tilde env _ hhome, Join_slash_left _ _ hhome] at hv
    obtain ⟨N, _, _, hN1, hN2⟩ := Abs_ok env _ t ht
    rw [← Except.ok.inj hv, hN1, hN2]
  · rw [resolveTarget_plain env p h] at ht
    rw [expandOutputPath_plain env p h] at hv
    obtain ⟨N, _, _, hN1, hN2⟩ := Abs_ok env p t ht
    rw [← Except.ok.inj hv, hN1, hN2]

theorem Join_abs_clean (home t0 : String) (habs : IsAbs home = true) :
    IsAbs (Join home t0) = true ∧ Clean (Join home t0) = Join home t0 := by
  have hne := ne_empty_of_IsAbs home habs
  have hj : IsAbs (home ++ "/" ++ t0) = true := by
    rw [String.append_assoc]
    exact IsAbs_append home _ habs
  rw [Join_of_ne home t0 hne, Clean_of_IsAbs _ hj]
  exact ⟨IsAbs_render_true _, Clean_render_true _ (normalize_true_validName _)⟩

/-- With an absolute home directory, `~` and `~/...` are expanded to one and the same
path by the two functions. -/
theorem expansions_same_tilde (env : Env) (hhome : env.home ≠ "")
    (habs : IsAbs env.home = true) (p v t : String)
    (hp : p = "~" ∨ ∃ t0, p = "~/" ++ t0)
    (hv : expandOutputPath env p = .ok v) (ht : resolveTarget env p = .ok t) : v = t := by
  have hempty : ("" : String).data.head? ≠ some '/' := by decide
  rcases hp with h | ⟨t0, h⟩
  · subst h
    have ht2 : resolveTarget env ("~" ++ "") = .ok t := ht
    rw [resolveTarget_tilde_other env "" hhome hempty, Abs_of_IsAbs env _ habs] at ht2
    have ht := ht2
    have hv2 : expandOutputPath env ("~" ++ "") = .ok v := hv
    rw [expandOutputPath_tilde env "" hhome, Join_empty_right _ hhome] at hv2
    rw [← Except.ok.inj hv2, ← Except.ok.inj ht]
  · subst h
    obtain ⟨hj1, hj2⟩ := Join_abs_clean env.home t0 habs
    rw [resolveTarget_tilde_slash env t0 hhome, Abs_of_IsAbs env _ hj1, hj2] at ht
    rw [tilde_slash_eq, expandOutputPath_tilde env _ hhome, Join_slash_left _ _ hhome] at hv
    rw [← Except.ok.inj hv, ← Except.ok.inj ht]

theorem expansions_same_clean (env : Env) (p v t : String) (h : hasTildePrefix p = false)
    (habs : IsAbs p = true) (hclean : Clean p = p)
    (hv : expandOutputPath env p = .ok v) (ht : resolveTarget env p = .ok t) : v = t := by
  rw [resolveTarget_plain env p h, Abs_of_IsAbs env p habs, hclean] at ht
  rw [expandOutputPath_plain env p h] at hv
  rw [← Except.ok.inj hv, ← Except.ok.inj ht]

/-- The validation step of `BackupPermissions`: an entry found at the expanded output
path, in an existing directory, ends the run with the already-exists error. -/
theorem Sys.Backup_rejects_existing (sys : Sys) (fs : FS) (dir out v : String) (i : Inode)
    (hv : expandOutputPath sys.env out = .ok v)
    (hd : sys.IsDirectory fs (Dir v) = none) (hs : sys.stat fs v = .ok i) :
    sys.BackupPermissions fs dir out
      = (some (Error.invalidOutputFile (Error.alreadyExists v)), fs) := by
  have hval : sys.ValidateOutputPath fs out = some (Error.alreadyExists v) := by
    unfold Sys.ValidateOutputPath
    rw [hv]
    simp only [hd, hs]
  unfold Sys.BackupPermissions
  rw [hval]

theorem Sys.ValidateOutputPath_none (sys : Sys) (fs : FS) (out : String)
    (h : sys.ValidateOutputPath fs out = none) :
    ∃ v, expandOutputPath sys.env out = .ok v ∧ sys.IsDirectory fs (Dir v) = none ∧
      sys.stat fs v = .error Errno.ENOENT := by
  unfold Sys.ValidateOutputPath at h
  split at h
  · cases h
  · rename_i v hv
    refine ⟨v, hv, ?_⟩
    simp only at h
    split at h
    · cases h
    · rename_i hd
      refine ⟨hd, ?_⟩
      split at h
      · cases h
      · rename_i hs; exact hs
      · cases h

/-- The write step of `BackupPermissions`: once the validation, the two path
resolutions, the directory check and the walk have passed, the result is that of
`os.WriteFile` on the path `ResolveAbsolutePath` returned for the output file. -/
theorem Sys.Backup_writes (sys : Sys) (fs : FS) (dir out dp t : String)
    (perms : List FilePermissions)
    (hval : sys.ValidateOutputPath fs out = none)
    (hdp : sys.ResolveAbsolutePath fs dir [] = .ok dp)
    (ht : sys.ResolveAbsolutePath fs out [false] = .ok t)
    (hdir : sys.IsDirectory fs dp = none)
    (hw : sys.GetDirectoryPermissions fs dp = .ok perms) :
    sys.BackupPermissions fs dir out =
      match sys.writeFile fs t perms 0o644 with
      | .error e => (some (Error.writing (Error.sys e)), fs)
      | .ok fs1 => (none, fs1) := by
  unfold Sys.BackupPermissions
  rw [hval]
  simp only [hdp, ht, hdir, hw]

/-- C10, counterexample. The output path `/tmp/nonexistent/../d/a.txt` does not start
with `~`. `ValidateOutputPath` checks it as it is given: `os.Stat` finds no entry, since
`/tmp/nonexistent` is missing, and the validation passes. `ResolveAbsolutePath` cleans
it to `/tmp/d/a.txt`, an existing file, which `BackupPermissions` then overwrites. The
two functions do not refer to the same file. -/
theorem home_expansion_counterexample :
    hasTildePrefix "/tmp/nonexistent/../d/a.txt" = false ∧
      expandOutputPath sampleEnv "/tmp/nonexistent/../d/a.txt"
        = .ok "/tmp/nonexistent/../d/a.txt" ∧
      (posixSys sampleEnv false).stat sampleFS "/tmp/nonexistent/../d/a.txt"
        = .error Errno.ENOENT ∧
      (posixSys sampleEnv false).ResolveAbsolutePath sampleFS
        "/tmp/nonexistent/../d/a.txt" [false] = .ok "/tmp/d/a.txt" ∧
      (posixSys sampleEnv false).stat sampleFS "/tmp/d/a.txt" = .ok (fileNode 0o644) ∧
      (posixSys sampleEnv false).ValidateOutputPath sampleFS
        "/tmp/nonexistent/../d/a.txt" = none ∧
      ((posixSys sampleEnv false).BackupPermissions sampleFS "d"
        "/tmp/nonexistent/../d/a.txt").1 = none ∧
      (posixSys sampleEnv false).stat
        ((posixSys sampleEnv false).BackupPermissions sampleFS "d"
          "/tmp/nonexistent/../d/a.txt").2 "/tmp/d/a.txt"
        = .ok { isDir := false, perm := 0o644,
                content := [visit "/tmp/d" (dirNode 0o755),
                  visit "/tmp/d/a.txt" (fileNode 0o644),
                  visit "/tmp/d/sub" (dirNode 0o755)] } := by
  decide

/-- C10, amended (the two home-directory expansions). Whatever the system calls do,
with `$HOME` set: for a path `~rest` where `rest` is not empty and does not start with
`/`, `ResolveAbsolutePath` resolves to the home directory itself, as for `~` alone, and
discards `rest`, whereas `ValidateOutputPath` checks the home directory joined with
`rest`. Consequently `BackupPermissions` validates the one and writes to the other: an
entry at the joined path stops it with the already-exists error, and when the
validation passes (nothing at the joined path) its result is that of `os.WriteFile` on
the home directory. The two paths never lead to the same entry when the home directory
is absolute and `rest` is an entry name. For `~`, `~/...` and paths that do not start
with `~` the checked path and the resolved path never lead to two different entries;
they are one and the same path for `~` and `~/...` with an absolute home directory, and
for an absolute path that is already clean. -/
theorem home_expansions (sys : Sys) (root : Bool) (fs : FS) (hhome : sys.env.home ≠ "") :
    (∀ rest : String, rest ≠ "" → rest.data.head? ≠ some '/' →
      sys.ResolveAbsolutePath fs ("~" ++ rest) [false] = Abs sys.env sys.env.home ∧
      sys.ResolveAbsolutePath fs ("~" ++ rest) [false]
        = sys.ResolveAbsolutePath fs "~" [false] ∧
      expandOutputPath sys.env ("~" ++ rest) = .ok (Join sys.env.home rest) ∧
      (∀ (dir : String) (i : Inode),
        sys.IsDirectory fs (Dir (Join sys.env.home rest)) = none →
        sys.stat fs (Join sys.env.home rest) = .ok i →
        sys.BackupPermissions fs dir ("~" ++ rest)
          = (some (Error.invalidOutputFile
              (Error.alreadyExists (Join sys.env.home rest))), fs)) ∧
      (∀ (dir dp t : String) (perms : List FilePermissions),
        sys.ValidateOutputPath fs ("~" ++ rest) = none →
        sys.ResolveAbsolutePath fs dir [] = .ok dp →
        Abs sys.env sys.env.home = .ok t →
        sys.IsDirectory fs dp = none →
        sys.GetDirectoryPermissions fs dp = .ok perms →
        sys.stat fs (Join sys.env.home rest) = .error Errno.ENOENT ∧
          sys.BackupPermissions fs dir ("~" ++ rest) =
            match sys.writeFile fs t perms 0o644 with
            | .error e => (some (Error.writing (Error.sys e)), fs)
            | .ok fs1 => (none, fs1)) ∧
      (IsAbs sys.env.home = true → validName rest →
        ∀ (t : String) (a b : List String), Abs sys.env sys.env.home = .ok t →
          locate sys.env root fs (Join sys.env.home rest) = .ok a →
          locate sys.env root fs t = .ok b → a ≠ b)) ∧
    (∀ p v t : String, (p = "~" ∨ (∃ t0, p = "~/" ++ t0) ∨ hasTildePrefix p = false) →
      expandOutputPath sys.env p = .ok v → sys.ResolveAbsolutePath fs p [false] = .ok t →
      (∀ a b : List String, locate sys.env root fs v = .ok a →
        locate sys.env root fs t = .ok b → a = b) ∧
      (hasTildePrefix p = true → IsAbs sys.env.home = true → v = t) ∧
      (hasTildePrefix p = false → IsAbs p = true → Clean p = p → v = t)) := by
  have hempty : ("" : String).data.head? ≠ some '/' := by decide
  constructor
  · intro rest _ hr
    have h1 : sys.ResolveAbsolutePath fs ("~" ++ rest) [false] = Abs sys.env sys.env.home := by
      rw [Sys.resolve_unchecked, resolveTarget_tilde_other sys.env rest hhome hr]
    have hexp := expandOutputPath_tilde sys.env rest hhome
    refine ⟨h1, ?_, hexp, ?_, ?_, ?_⟩
    · rw [h1, Sys.resolve_unchecked]
      exact (resolveTarget_tilde_other sys.env "" hhome hempty).symm
    · intro dir i hd hs
      exact Sys.Backup_rejects_existing sys fs dir _ _ i hexp hd hs
    · intro dir dp t perms hval hdp ht hdir hw
      obtain ⟨v, hv, _, hs⟩ := Sys.ValidateOutputPath_none sys fs _ hval
      rw [hexp] at hv
      rw [Except.ok.inj hv]
      exact ⟨hs, Sys.Backup_writes sys fs dir _ dp t perms hval hdp (h1.trans ht) hdir hw⟩
    · intro habs hname t a b ht ha hb
      obtain ⟨N, _, _, hN1, hN2⟩ := Abs_ok sys.env sys.env.home t ht
      have ra := locate_lexical sys.env root fs _ a ha
      have rb := locate_lexical sys.env root fs _ b hb
      rw [(resolve_Join sys.env sys.env.home rest N habs hN1 hname).2] at ra
      rw [hN2] at rb
      rw [← Option.some.inj ra, ← Option.some.inj rb]
      intro e
      have := congrArg List.length e
      simp at this
  · intro p v t hp hv ht
    rw [Sys.resolve_unchecked] at ht
    refine ⟨?_, ?_, ?_⟩
    · intro a b ha hb
      have ra := locate_lexical sys.env root fs _ a ha
      have rb := locate_lexical sys.env root fs _ b hb
      rw [expansions_agree sys.env hhome p v t hp hv ht, rb] at ra
      exact (Option.some.inj ra).symm
    · intro htp habs
      rcases hp with h | h | h
      · exact expansions_same_tilde sys.env hhome habs p v t (Or.inl h) hv ht
      · exact expansions_same_tilde sys.env hhome habs p v t (Or.inr h) hv ht
      · rw [h] at htp; cases htp
    · intro htp habs hclean
      exact expansions_same_clean sys.env p v t htp habs hclean hv ht

/-- Witness of the amended C10 on the sample tree, for a process that is not the
superuser, at the output file `~backup.json`: the validation finds nothing at
`/home/u/backup.json`, and the result of `BackupPermissions` is that of the write to
`/home/u`. -/
theorem home_expansions_witness :
    (posixSys sampleEnv false).stat sampleFS (Join sampleEnv.home "backup.json")
        = .error Errno.ENOENT ∧
      (posixSys sampleEnv false).BackupPermissions sampleFS "d" ("~" ++ "backup.json") =
        match (posixSys sampleEnv false).writeFile sampleFS "/home/u"
            [visit "/tmp/d" (dirNode 0o755), visit "/tmp/d/a.txt" (fileNode 0o644),
              visit "/tmp/d/sub" (dirNode 0o755)] 0o644 with
        | .error e => (some (Error.writing (Error.sys e)), sampleFS)
        | .ok fs1 => (none, fs1) :=
  ((home_expansions (posixSys sampleEnv false) false sampleFS (by decide)).1
    "backup.json" (by decide) (by decide)).2.2.2.2.1 "d" "/tmp/d" "/home/u"
    [visit "/tmp/d" (dirNode 0o755), visit "/tmp/d/a.txt" (fileNode 0o644),
      visit "/tmp/d/sub" (dirNode 0o755)]
    (by decide) (by decide) (by decide) (by decide) (by decide)

/-! ## The unprefixed functions are the program over `lexicalSys` -/

theorem walkEntries_eq_map (es : Entries) :
    ∀ path, walkEntries path es = (walkPairs path es).map (fun v => visit v.1 v.2) := by
  induction es with
  | nil => intro path; rfl
  | cons name info ch rest ihc ihr =>
    intro path
    simp only [walkEntries, walkPairs, List.map_cons, List.map_append, ihr]
    by_cases hd : info.isDir = true
    · simp only [if_pos hd, ihc]
    · simp only [if_neg hd, List.map_nil]

theorem lexical_GetDirectoryPermissions (env : Env) (fs : FS) (dir : String) :
    GetDirectoryPermissions env fs dir = (lexicalSys env).GetDirectoryPermissions fs dir := by
  unfold GetDirectoryPermissions Sys.GetDirectoryPermissions
  show _ = match lexicalWalk env fs dir with
    | .error (path, e) => _
    | .ok visited => _
  unfold lexicalWalk
  cases resolve env dir with
  | none => rfl
  | some cs =>
    simp only
    cases fs.lookup cs with
    | error e => rfl
    | ok x =>
      obtain ⟨info, ch⟩ := x
      simp only [List.map_cons]
      by_cases hd : info.isDir = true
      · simp only [if_pos hd, walkEntries_eq_map]
      · simp only [if_neg hd, List.map_nil]

theorem lexical_Restore (env : Env) :
    ∀ (recs : List FilePermissions) (fs : FS),
      RestorePermissionsFromJSON env recs fs
        = (lexicalSys env).RestorePermissionsFromJSON recs fs := by
  intro recs
  induction recs with
  | nil => intro fs; rfl
  | cons r recs ih =>
    intro fs
    have h1 : restoreOne env r fs = (lexicalSys env).restoreOne r fs := rfl
    simp only [RestorePermissionsFromJSON, Sys.RestorePermissionsFromJSON, h1, ih]

/-- The functions named as in the source, without prefix, are the functions of the
program over the system-call layer `lexicalSys`. -/
theorem lexical_instance (env : Env) (fs : FS) :
    (∀ path, IsDirectory env fs path = (lexicalSys env).IsDirectory fs path) ∧
      (∀ out, ValidateOutputPath env fs out = (lexicalSys env).ValidateOutputPath fs out) ∧
      (∀ path check, ResolveAbsolutePath env fs path check
        = (lexicalSys env).ResolveAbsolutePath fs path check) ∧
      (∀ dir, GetDirectoryPermissions env fs dir
        = (lexicalSys env).GetDirectoryPermissions fs dir) ∧
      (∀ recs, RestorePermissionsFromJSON env recs fs
        = (lexicalSys env).RestorePermissionsFromJSON recs fs) ∧
      (∀ dir out, BackupPermissions env fs dir out
        = (lexicalSys env).BackupPermissions fs dir out) := by
  have h1 : ∀ path, IsDirectory env fs path = (lexicalSys env).IsDirectory fs path :=
    fun _ => rfl
  have h2 : ∀ out, ValidateOutputPath env fs out
      = (lexicalSys env).ValidateOutputPath fs out := fun _ => rfl
  have h3 : ∀ path check, ResolveAbsolutePath env fs path check
      = (lexicalSys env).ResolveAbsolutePath fs path check := fun _ _ => rfl
  refine ⟨h1, h2, h3, lexical_GetDirectoryPermissions env fs,
    fun recs => lexical_Restore env recs fs, ?_⟩
  intro dir out
  unfold BackupPermissions Sys.BackupPermissions
  simp only [h1, h2, h3, lexical_GetDirectoryPermissions]
  rfl

/-! ## The two system-call layers agree on cleaned absolute path names -/

theorem inode_append_one (fs : FS) (pos : List String) (j : Inode) (g : Entries)
    (c : String) (h : fs.lookup pos = .ok (j, g)) :
    fs.lookup (pos ++ [c]) = lookupFrom j g [c] :=
  lookupFrom_append pos fs.root fs.top j g [c] h

/-- For the superuser the kernel's walk over plain names is the lookup. -/
theorem namei_plain (fs : FS) :
    ∀ (N pos : List String) (j : Inode) (g : Entries), (∀ c ∈ N, plain c) →
      fs.lookup pos = .ok (j, g) →
      namei true fs N pos.reverse
        = (fs.inode (pos ++ N)).map (fun _ => (pos ++ N).reverse) := by
  intro N
  induction N with
  | nil =>
    intro pos j g _ h
    rw [List.append_nil, inode_of_lookup fs pos j g h]
    rfl
  | cons c N ih =>
    intro pos j g hN h
    have hc := hN c (List.mem_cons_self _ _)
    have hrest : ∀ x ∈ N, plain x := fun x hx => hN x (List.mem_cons_of_mem _ hx)
    have hlk : fs.lookup (pos ++ c :: N) = lookupFrom j g (c :: N) :=
      lookupFrom_append pos fs.root fs.top j g (c :: N) h
    unfold namei
    rw [List.reverse_reverse, inode_of_lookup fs pos j g h]
    simp only
    by_cases hd : j.isDir = true
    · simp only [hd, Bool.not_true, Bool.false_eq_true, if_false, if_neg hc.1, maySearch,
        Bool.true_or, if_neg hc.2.1, if_neg hc.2.2]
      have e1 : (c :: pos.reverse).reverse = pos ++ [c] := by simp
      rw [e1]
      cases hch : g.child c with
      | none =>
        have h1 : fs.inode (pos ++ [c]) = .error Errno.ENOENT := by
          unfold FS.inode
          rw [inode_append_one fs pos j g c h]
          simp [lookupFrom, hd, hch]
        have h2 : fs.inode (pos ++ c :: N) = .error Errno.ENOENT := by
          unfold FS.inode
          rw [hlk]
          simp [lookupFrom, hd, hch]
        rw [h1, h2]
        rfl
      | some x =>
        obtain ⟨k, kg⟩ := x
        have h1 : fs.lookup (pos ++ [c]) = .ok (k, kg) := by
          rw [inode_append_one fs pos j g c h]
          simp [lookupFrom, hd, hch]
        rw [inode_of_lookup fs _ k kg h1]
        simp only
        have e2 : c :: pos.reverse = (pos ++ [c]).reverse := by simp
        rw [e2, ih (pos ++ [c]) k kg hrest h1, List.append_assoc]
        rfl
    · have h2 : fs.inode (pos ++ c :: N) = .error Errno.ENOTDIR := by
        unfold FS.inode
        rw [hlk]
        simp [lookupFrom, hd]
      simp only [hd, Bool.not_false, if_true, h2]
      rfl

theorem locate_render_true (env : Env) (fs : FS) (N : List String)
    (hroot : fs.root.isDir = true) (hN : ∀ c ∈ N, validName c) :
    locate env true fs (render true N) = (fs.inode N).map (fun _ => N) := by
  have h0 : fs.lookup [] = .ok (fs.root, fs.top) := rfl
  have hi0 : fs.inode [] = .ok fs.root := rfl
  have hstep : ∀ cs : List String,
      namei true fs ("" :: cs) [] = namei true fs cs [] := by
    intro cs
    rw [namei]
    simp only [List.reverse_nil, hi0, hroot, Bool.not_true, Bool.false_eq_true, if_false,
      if_true]
  unfold locate
  rw [if_neg (ne_empty_render_true N)]
  have hs : walkStart env (render true N) = some [] := by
    unfold walkStart
    rw [if_pos (IsAbs_render_true N)]
  rw [hs, components_render_true N (fun c hc => (hN c hc).2)]
  simp only
  by_cases hnil : N = []
  · subst hnil
    rw [if_pos rfl, hstep, hstep]
    rfl
  · rw [if_neg hnil, hstep]
    have h := namei_plain fs N [] fs.root fs.top (fun c hc => (hN c hc).1) h0
    simp only [List.reverse_nil, List.nil_append] at h
    rw [h]
    cases fs.inode N with
    | error e => rfl
    | ok i => simp [Except.map]

/-- On a cleaned absolute path name the calls `Stat` and `Chmod` are the calls of the
superuser on the kernel's resolution. -/
theorem lexical_agrees_with_kernel (env : Env) (fs : FS) (N : List String)
    (hroot : fs.root.isDir = true) (hN : ∀ c ∈ N, validName c) :
    posixStat env true fs (render true N) = Stat env fs (render true N) ∧
      ∀ mode, posixChmod env true fs (render true N) mode
        = Chmod env fs (render true N) mode := by
  constructor
  · unfold posixStat
    rw [locate_render_true env fs N hroot hN, Stat_eq, resolve_render_true env N hN]
    cases h : fs.inode N with
    | error e => simp [Except.map, h]
    | ok i => simp [Except.map, h]
  · intro mode
    unfold posixChmod
    rw [locate_render_true env fs N hroot hN, Chmod_eq, resolve_render_true env N hN]
    cases h : fs.inode N with
    | error e => simp [Except.map, h]
    | ok i => simp [Except.map, h]

end FsPermBackup
